import Mathlib

/-!
Verification development for the project-scaffolding wizard
(`src/app/api/createProject/route.ts`).

The file shallowly embeds the parts of the pipeline the claims are about:

* a JSON value model for the configuration document handled by
  `updateAppConfigJson` (the JS runtime parses `app_config.json` into a
  plain object; property reads/writes on that object are modelled by
  `jsMember`, `updIn`, `setIns` below, with JS truthiness and the
  strict-mode TypeError on property assignment to a non-object);
* the regex-based extraction helpers (`extractAppId`, the plist and
  web-config key extraction) as executable scanners over `List Char`;
* the stage sequencing of the POST handler, with every external
  collaborator call (git, firebase CLI, GitHub API, JSON.parse) given by
  an environment of oracles, so that the fatal/tolerated behaviour of
  each stage is the code's own try/catch structure.
-/

/-- JSON values as the JS runtime represents the parsed configuration
document.  Numbers are modelled as integers (no numeric field of the
config is ever arithmetically manipulated by the code). -/
inductive Json where
  | null : Json
  | bool : Bool → Json
  | num : Int → Json
  | str : String → Json
  | arr : List Json → Json
  | obj : List (String × Json) → Json

/-- JS truthiness of a JSON value (`undefined` is represented separately
by `Option.none` at use sites). -/
def Json.truthy : Json → Bool
  | .null => false
  | .bool b => b
  | .num n => n != 0
  | .str s => s != ""
  | .arr _ => true
  | .obj _ => true

/-- Whether the value is a JS object (property writes succeed only on
objects in strict mode). -/
def Json.isObj : Json → Bool
  | .obj _ => true
  | _ => false

/-- Truthiness of a possibly-undefined value. -/
def truthyOpt : Option Json → Bool
  | some j => j.truthy
  | none => false

/-- First-occurrence lookup in an object's field list (JS property read). -/
def getKey : List (String × Json) → String → Option Json
  | [], _ => none
  | (k1, v1) :: t, k => if k1 = k then some v1 else getKey t k

/-- JS property write on an object's field list: replace the first
occurrence in place, append at the end when absent. -/
def setKey : List (String × Json) → String → Json → List (String × Json)
  | [], k, v => [(k, v)]
  | (k1, v1) :: t, k, v => if k1 = k then (k1, v) :: t else (k1, v1) :: setKey t k v

theorem getKey_setKey_self (l : List (String × Json)) (k : String) (v : Json) :
    getKey (setKey l k v) k = some v := by
  induction l with
  | nil => simp [setKey, getKey]
  | cons hd t ih =>
    by_cases h : hd.1 = k
    · simp [setKey, getKey, h]
    · simp [setKey, getKey, h, ih]

theorem getKey_setKey_ne (l : List (String × Json)) (k k2 : String) (v : Json)
    (h : k2 ≠ k) : getKey (setKey l k v) k2 = getKey l k2 := by
  induction l with
  | nil => simp [setKey, getKey, Ne.symm h]
  | cons hd t ih =>
    obtain ⟨a, w⟩ := hd
    by_cases h1 : a = k
    · subst h1
      simp [setKey, getKey, Ne.symm h]
    · simp only [setKey, if_neg h1]
      by_cases h2 : a = k2
      · simp [getKey, h2]
      · simp [getKey, h2, ih]

theorem setKey_self_id (l : List (String × Json)) (k : String) (v : Json)
    (h : getKey l k = some v) : setKey l k v = l := by
  induction l with
  | nil => simp [getKey] at h
  | cons hd t ih =>
    obtain ⟨a, w⟩ := hd
    by_cases h1 : a = k
    · subst h1
      have hw : w = v := by simpa [getKey] using h
      simp [setKey, hw]
    · have ht : getKey t k = some v := by simpa [getKey, h1] using h
      simp [setKey, h1, ih ht]

/-- JS property read `j.k`: defined on objects, `undefined` otherwise
(none of the config keys is a built-in property of a primitive). -/
def jsMember : Json → String → Option Json
  | .obj l, k => getKey l k
  | _, _ => none

/-- Reading a chain of properties `j.k1.k2...` (used for the guard
expressions of `updateAppConfigJson`; short-circuiting at the use sites
ensures no read in a guard throws). -/
def jsGetPath : Json → List String → Option Json
  | j, [] => some j
  | j, k :: ks =>
    match jsMember j k with
    | some v => jsGetPath v ks
    | none => none

theorem jsMember_nonobj (j : Json) (k : String) (h : j.isObj = false) :
    jsMember j k = none := by
  cases j <;> simp_all [jsMember, Json.isObj]

theorem jsGetPath_nonobj_cons (j : Json) (k : String) (ks : List String)
    (h : j.isObj = false) : jsGetPath j (k :: ks) = none := by
  simp [jsGetPath, jsMember_nonobj j k h]

theorem jsGetPath_cons_obj (j : Json) (k : String) (ks : List String) (w : Json)
    (h : jsGetPath j (k :: ks) = some w) : ∃ l, j = .obj l := by
  cases j <;> first
    | exact ⟨_, rfl⟩
    | simp_all [jsGetPath, jsMember]

theorem jsGetPath_append (j : Json) (p q : List String) :
    jsGetPath j (p ++ q) = (jsGetPath j p).bind (fun x => jsGetPath x q) := by
  induction p generalizing j with
  | nil => simp [jsGetPath]
  | cons k p ih =>
    simp only [List.cons_append, jsGetPath]
    cases jsMember j k with
    | none => simp
    | some v => simp [ih v]

/-- One path is an ancestor of (or equal to) another. -/
def PathPref (p q : List String) : Prop := ∃ r, p ++ r = q

theorem pathPref_refl (p : List String) : PathPref p p := ⟨[], by simp⟩

theorem pathPref_antisymm {p q : List String} (h1 : PathPref p q) (h2 : PathPref q p) :
    p = q := by
  obtain ⟨r, hr⟩ := h1
  obtain ⟨s, hs⟩ := h2
  have hlen : p.length + r.length = q.length := by
    simpa using congrArg List.length hr
  have hlen2 : q.length + s.length = p.length := by
    simpa using congrArg List.length hs
  have : r.length = 0 := by omega
  have : r = [] := List.length_eq_zero.mp this
  subst this
  simpa using hr

def pathPrefB : List String → List String → Bool
  | [], _ => true
  | _ :: _, [] => false
  | a :: p, b :: q => a == b && pathPrefB p q

theorem pathPrefB_iff (p q : List String) : pathPrefB p q = true ↔ PathPref p q := by
  induction p generalizing q with
  | nil => simp [pathPrefB, PathPref]
  | cons a p ih =>
    cases q with
    | nil =>
      constructor
      · intro h; simp [pathPrefB] at h
      · rintro ⟨r, hr⟩; simp at hr
    | cons b q =>
      simp only [pathPrefB, Bool.and_eq_true, beq_iff_eq, ih]
      constructor
      · rintro ⟨rfl, r, hr⟩
        exact ⟨r, by simp [hr]⟩
      · rintro ⟨r, hr⟩
        simp only [List.cons_append, List.cons.injEq] at hr
        exact ⟨hr.1, r, hr.2⟩

instance (p q : List String) : Decidable (PathPref p q) :=
  decidable_of_iff _ (pathPrefB_iff p q)

theorem jsGetPath_pref_some {j : Json} {p q : List String} {w : Json}
    (hpq : PathPref p q) (h : jsGetPath j q = some w) :
    ∃ u, jsGetPath j p = some u := by
  obtain ⟨r, rfl⟩ := hpq
  rw [jsGetPath_append] at h
  cases hu : jsGetPath j p with
  | none => rw [hu] at h; simp at h
  | some u => exact ⟨u, rfl⟩

theorem jsGetPath_strict_pref_obj {j : Json} {p q : List String} {w : Json}
    (hpq : PathPref p q) (hne : p ≠ q) (h : jsGetPath j q = some w) :
    ∃ l, jsGetPath j p = some (Json.obj l) := by
  obtain ⟨r, rfl⟩ := hpq
  cases r with
  | nil => simp at hne
  | cons k r =>
    rw [jsGetPath_append] at h
    cases hu : jsGetPath j p with
    | none => rw [hu] at h; simp at h
    | some u =>
      rw [hu] at h
      have h2 : jsGetPath u (k :: r) = some w := h
      obtain ⟨l, rfl⟩ := jsGetPath_cons_obj u k r w h2
      exact ⟨l, rfl⟩

theorem jsGetPath_none_of_pref_nonobj {j : Json} {p q : List String} {v : Json}
    (hpq : PathPref p q) (hne : p ≠ q) (hv : jsGetPath j p = some v)
    (hno : v.isObj = false) : jsGetPath j q = none := by
  obtain ⟨r, rfl⟩ := hpq
  cases r with
  | nil => simp at hne
  | cons k r =>
    rw [jsGetPath_append, hv]
    show jsGetPath v (k :: r) = none
    exact jsGetPath_nonobj_cons v k r hno

theorem pathPref_nil_left (q : List String) : PathPref [] q := ⟨q, rfl⟩

theorem pathPref_cons_iff (a : String) (p q : List String) :
    PathPref (a :: p) (a :: q) ↔ PathPref p q := by
  constructor
  · rintro ⟨r, hr⟩
    simp only [List.cons_append, List.cons.injEq] at hr
    exact ⟨r, hr.2⟩
  · rintro ⟨r, hr⟩
    exact ⟨r, by simp [hr]⟩

theorem pathPref_cons_elim {a : String} {p q : List String}
    (h : PathPref (a :: p) q) : ∃ qt, q = a :: qt ∧ PathPref p qt := by
  obtain ⟨r, hr⟩ := h
  cases q with
  | nil => cases hr
  | cons b qt =>
    simp only [List.cons_append, List.cons.injEq] at hr
    exact ⟨qt, by rw [hr.1], ⟨r, hr.2⟩⟩

/-- JS guarded in-place update `if (cfg.<path> !== undefined) cfg.<path> = v`
(the repeated statement shape of `updateAppConfigJson`, route.ts 663-727):
the path is navigated through object properties and the leaf value is
replaced only when the whole path is already present; otherwise the
document is returned unchanged. -/
def updIn (j : Json) : List String → Json → Json
  | [], v => v
  | k :: ks, v =>
    match j with
    | .obj l =>
      match getKey l k with
      | some sub => .obj (setKey l k (updIn sub ks v))
      | none => .obj l
    | _ => j

theorem updIn_none_id (j : Json) (p : List String) (v : Json)
    (h : jsGetPath j p = none) : updIn j p v = j := by
  induction p generalizing j with
  | nil => simp [jsGetPath] at h
  | cons k ks ih =>
    cases j with
    | obj l =>
      cases hk : getKey l k with
      | none => simp [updIn, hk]
      | some sub =>
        have hsub : jsGetPath sub ks = none := by
          simpa [jsGetPath, jsMember, hk] using h
        simp [updIn, hk, ih sub hsub, setKey_self_id l k sub hk]
    | null => rfl
    | bool b => rfl
    | num n => rfl
    | str s => rfl
    | arr xs => rfl

theorem updIn_get_self (j : Json) (p : List String) (v w : Json)
    (h : jsGetPath j p = some w) : jsGetPath (updIn j p v) p = some v := by
  induction p generalizing j with
  | nil => simp [updIn, jsGetPath]
  | cons k ks ih =>
    obtain ⟨l, rfl⟩ := jsGetPath_cons_obj j k ks w h
    cases hk : getKey l k with
    | none => simp [jsGetPath, jsMember, hk] at h
    | some sub =>
      have hsub : jsGetPath sub ks = some w := by
        simpa [jsGetPath, jsMember, hk] using h
      simp [updIn, hk, jsGetPath, jsMember, getKey_setKey_self, ih sub hsub]

theorem updIn_frame (j : Json) (p ks : List String) (v : Json)
    (h1 : ¬ PathPref p ks) (h2 : ¬ PathPref ks p) :
    jsGetPath (updIn j p v) ks = jsGetPath j ks := by
  induction p generalizing j ks with
  | nil => exact absurd (pathPref_nil_left ks) h1
  | cons k ps ih =>
    cases ks with
    | nil => exact absurd (pathPref_nil_left (k :: ps)) h2
    | cons kh kt =>
      cases j with
      | obj l =>
        by_cases hkh : k = kh
        · subst hkh
          have h1' : ¬ PathPref ps kt := fun hc => h1 ((pathPref_cons_iff k ps kt).mpr hc)
          have h2' : ¬ PathPref kt ps := fun hc => h2 ((pathPref_cons_iff k kt ps).mpr hc)
          cases hk : getKey l k with
          | none => simp [updIn, hk]
          | some sub =>
            simp [updIn, hk, jsGetPath, jsMember, getKey_setKey_self, ih sub kt h1' h2']
        · cases hk : getKey l k with
          | none => simp [updIn, hk]
          | some sub =>
            simp [updIn, hk, jsGetPath, jsMember,
              getKey_setKey_ne l k kh _ (fun hc => hkh hc.symm)]
      | null => rfl
      | bool b => rfl
      | num n => rfl
      | str s => rfl
      | arr xs => rfl

theorem updIn_keeps_none (j : Json) (p ks : List String) (v : Json)
    (hv : v.isObj = false) (h : jsGetPath j ks = none) :
    jsGetPath (updIn j p v) ks = none := by
  induction p generalizing j ks with
  | nil =>
    cases ks with
    | nil => simp [jsGetPath] at h
    | cons kh kt => exact jsGetPath_nonobj_cons v kh kt hv
  | cons k ps ih =>
    cases j with
    | obj l =>
      cases ks with
      | nil => simp [jsGetPath] at h
      | cons kh kt =>
        by_cases hkh : k = kh
        · subst hkh
          cases hk : getKey l k with
          | none => simp [updIn, hk, h]
          | some sub =>
            have hsub : jsGetPath sub kt = none := by
              simpa [jsGetPath, jsMember, hk] using h
            simp [updIn, hk, jsGetPath, jsMember, getKey_setKey_self, ih sub kt hsub]
        · cases hk : getKey l k with
          | none => simp [updIn, hk, h]
          | some sub =>
            have hne := getKey_setKey_ne l k kh (updIn sub ps v) (fun hc => hkh hc.symm)
            simp only [updIn, hk]
            simp only [jsGetPath, jsMember, hne]
            simpa [jsGetPath, jsMember] using h
    | null => simpa [updIn]
    | bool b => simpa [updIn]
    | num n => simpa [updIn]
    | str s => simpa [updIn]
    | arr xs => simpa [updIn]

theorem updIn_obj_pref (j : Json) (p ks : List String) (v : Json) (l : List (String × Json))
    (hpq : PathPref ks p) (hne : ks ≠ p) (h : jsGetPath j ks = some (.obj l)) :
    ∃ l2, jsGetPath (updIn j p v) ks = some (.obj l2) := by
  induction ks generalizing p j l with
  | nil =>
    have hj : j = .obj l := by simpa [jsGetPath] using h
    subst hj
    cases p with
    | nil => exact absurd rfl hne
    | cons k ps =>
      cases hk : getKey l k with
      | none => exact ⟨l, by simp [updIn, hk, jsGetPath]⟩
      | some sub => exact ⟨setKey l k (updIn sub ps v), by simp [updIn, hk, jsGetPath]⟩
  | cons kh kt ih =>
    obtain ⟨pt, rfl, hpt⟩ := pathPref_cons_elim hpq
    obtain ⟨lj, rfl⟩ := jsGetPath_cons_obj j kh kt _ h
    cases hk : getKey lj kh with
    | none => simp [jsGetPath, jsMember, hk] at h
    | some sub =>
      have hsub : jsGetPath sub kt = some (.obj l) := by
        simpa [jsGetPath, jsMember, hk] using h
      have hkt : kt ≠ pt := fun hc => hne (by rw [hc])
      obtain ⟨l2, hl2⟩ := ih sub pt l hpt hkt hsub
      exact ⟨l2, by simp [updIn, hk, jsGetPath, jsMember, getKey_setKey_self, hl2]⟩

/-- JS unguarded assignment `cfg.<pp>.<k> = v` (the web-section updates of
`updateAppConfigJson`, route.ts 769-797, have no `!== undefined` guard):
navigates to the parent object and writes the key, inserting it when
absent; a missing hop or a non-object target is the strict-mode TypeError
(`Except.error`), which the function's outer catch later absorbs. -/
def setIns (j : Json) : List String → String → Json → Except Unit Json
  | [], k, v =>
    match j with
    | .obj l => .ok (.obj (setKey l k v))
    | _ => .error ()
  | k1 :: p, k, v =>
    match j with
    | .obj l =>
      match getKey l k1 with
      | some sub =>
        match setIns sub p k v with
        | .ok sub2 => .ok (.obj (setKey l k1 sub2))
        | .error e => .error e
      | none => .error ()
    | _ => .error ()

theorem setIns_parent_obj {j j2 : Json} {pp : List String} {k : String} {v : Json}
    (h : setIns j pp k v = .ok j2) : ∃ l, jsGetPath j pp = some (.obj l) := by
  induction pp generalizing j j2 with
  | nil =>
    cases j with
    | obj l => exact ⟨l, by simp [jsGetPath]⟩
    | null => simp [setIns] at h
    | bool b => simp [setIns] at h
    | num n => simp [setIns] at h
    | str s => simp [setIns] at h
    | arr xs => simp [setIns] at h
  | cons k1 p ih =>
    cases j with
    | obj l =>
      cases hk : getKey l k1 with
      | none => simp [setIns, hk] at h
      | some sub =>
        cases hs : setIns sub p k v with
        | error e => simp [setIns, hk, hs] at h
        | ok sub2 =>
          obtain ⟨lo, hlo⟩ := ih hs
          exact ⟨lo, by simp [jsGetPath, jsMember, hk, hlo]⟩
    | null => simp [setIns] at h
    | bool b => simp [setIns] at h
    | num n => simp [setIns] at h
    | str s => simp [setIns] at h
    | arr xs => simp [setIns] at h

theorem setIns_get_target {j j2 : Json} {pp : List String} {k : String} {v : Json}
    (h : setIns j pp k v = .ok j2) : jsGetPath j2 (pp ++ [k]) = some v := by
  induction pp generalizing j j2 with
  | nil =>
    cases j <;> simp_all [setIns]
    subst h
    simp [jsGetPath, jsMember, getKey_setKey_self]
  | cons k1 p ih =>
    cases j with
    | obj l =>
      cases hk : getKey l k1 with
      | none => simp [setIns, hk] at h
      | some sub =>
        cases hs : setIns sub p k v with
        | error e => simp [setIns, hk, hs] at h
        | ok sub2 =>
          have hj2 : j2 = .obj (setKey l k1 sub2) := by
            simpa [setIns, hk, hs] using h.symm
          subst hj2
          simp [jsGetPath, jsMember, getKey_setKey_self, ih hs]
    | null => simp [setIns] at h
    | bool b => simp [setIns] at h
    | num n => simp [setIns] at h
    | str s => simp [setIns] at h
    | arr xs => simp [setIns] at h

theorem setIns_frame {j j2 : Json} {pp : List String} {k : String} {v : Json}
    (h : setIns j pp k v = .ok j2) (ks : List String)
    (h1 : ¬ PathPref (pp ++ [k]) ks) (h2 : ¬ PathPref ks (pp ++ [k])) :
    jsGetPath j2 ks = jsGetPath j ks := by
  induction pp generalizing j j2 ks with
  | nil =>
    cases j <;> simp_all [setIns]
    subst h
    cases ks with
    | nil => exact absurd (pathPref_nil_left _) h2
    | cons kh kt =>
      by_cases hkh : kh = k
      · subst hkh
        cases kt with
        | nil => exact absurd (pathPref_refl _) h2
        | cons a b => exact absurd ⟨a :: b, rfl⟩ h1
      · simp [jsGetPath, jsMember, getKey_setKey_ne _ k kh v hkh]
  | cons k1 p ih =>
    cases j with
    | obj l =>
      cases hk : getKey l k1 with
      | none => simp [setIns, hk] at h
      | some sub =>
        cases hs : setIns sub p k v with
        | error e => simp [setIns, hk, hs] at h
        | ok sub2 =>
          have hj2 : j2 = .obj (setKey l k1 sub2) := by
            simpa [setIns, hk, hs] using h.symm
          subst hj2
          cases ks with
          | nil => exact absurd (pathPref_nil_left _) h2
          | cons kh kt =>
            by_cases hkh : k1 = kh
            · subst hkh
              have h1' : ¬ PathPref (p ++ [k]) kt := fun hc =>
                h1 ((pathPref_cons_iff k1 (p ++ [k]) kt).mpr hc)
              have h2' : ¬ PathPref kt (p ++ [k]) := fun hc =>
                h2 ((pathPref_cons_iff k1 kt (p ++ [k])).mpr hc)
              simp [jsGetPath, jsMember, hk, getKey_setKey_self, ih hs kt h1' h2']
            · simp [jsGetPath, jsMember, hk,
                getKey_setKey_ne l k1 kh _ (fun hc => hkh hc.symm)]
    | null => simp [setIns] at h
    | bool b => simp [setIns] at h
    | num n => simp [setIns] at h
    | str s => simp [setIns] at h
    | arr xs => simp [setIns] at h

theorem setIns_keeps_none {j j2 : Json} {pp : List String} {k : String} {v : Json}
    (hv : v.isObj = false) (h : setIns j pp k v = .ok j2) (ks : List String)
    (hn : jsGetPath j ks = none) :
    jsGetPath j2 ks = none ∨ ks = pp ++ [k] := by
  induction pp generalizing j j2 ks with
  | nil =>
    cases j with
    | obj l =>
      simp only [setIns] at h
      injection h with h
      subst h
      cases ks with
      | nil => simp [jsGetPath] at hn
      | cons kh kt =>
        by_cases hkh : kh = k
        · subst hkh
          cases kt with
          | nil => exact Or.inr rfl
          | cons a b =>
            refine Or.inl ?_
            have hm : jsMember (Json.obj (setKey l kh v)) kh = some v := by
              simp [jsMember, getKey_setKey_self]
            simp only [jsGetPath, hm]
            exact jsGetPath_nonobj_cons v a b hv
        · exact Or.inl (by simpa [jsGetPath, jsMember,
            getKey_setKey_ne l k kh v hkh] using hn)
    | null => simp [setIns] at h
    | bool b => simp [setIns] at h
    | num n => simp [setIns] at h
    | str s => simp [setIns] at h
    | arr xs => simp [setIns] at h
  | cons k1 p ih =>
    cases j with
    | obj l =>
      cases hk : getKey l k1 with
      | none => simp [setIns, hk] at h
      | some sub =>
        cases hs : setIns sub p k v with
        | error e => simp [setIns, hk, hs] at h
        | ok sub2 =>
          have hj2 : j2 = .obj (setKey l k1 sub2) := by
            simpa [setIns, hk, hs] using h.symm
          subst hj2
          cases ks with
          | nil => simp [jsGetPath] at hn
          | cons kh kt =>
            by_cases hkh : k1 = kh
            · subst hkh
              have hsubn : jsGetPath sub kt = none := by
                simpa [jsGetPath, jsMember, hk] using hn
              rcases ih hs kt hsubn with hl | hr
              · exact Or.inl (by simp [jsGetPath, jsMember, getKey_setKey_self, hl])
              · exact Or.inr (by simp [hr])
            · exact Or.inl (by simpa [jsGetPath, jsMember,
                getKey_setKey_ne l k1 kh _ (fun hc => hkh hc.symm)] using hn)
    | null => simp [setIns] at h
    | bool b => simp [setIns] at h
    | num n => simp [setIns] at h
    | str s => simp [setIns] at h
    | arr xs => simp [setIns] at h

theorem setIns_obj_pref {j j2 : Json} {pp : List String} {k : String} {v : Json}
    (h : setIns j pp k v = .ok j2) (ks : List String) (l : List (String × Json))
    (hpq : PathPref ks (pp ++ [k])) (hne : ks ≠ pp ++ [k])
    (hobj : jsGetPath j ks = some (.obj l)) :
    ∃ l2, jsGetPath j2 ks = some (.obj l2) := by
  induction ks generalizing pp j j2 l with
  | nil =>
    have hj : j = .obj l := by simpa [jsGetPath] using hobj
    subst hj
    cases pp with
    | nil =>
      simp only [setIns] at h
      injection h with h
      subst h
      exact ⟨setKey l k v, by simp [jsGetPath]⟩
    | cons k1 p =>
      cases hk : getKey l k1 with
      | none => simp [setIns, hk] at h
      | some sub =>
        cases hs : setIns sub p k v with
        | error e => simp [setIns, hk, hs] at h
        | ok sub2 =>
          have hj2 : j2 = .obj (setKey l k1 sub2) := by
            simpa [setIns, hk, hs] using h.symm
          exact ⟨setKey l k1 sub2, by simp [hj2, jsGetPath]⟩
  | cons kh kt ih =>
    obtain ⟨qt, hq, hqt⟩ := pathPref_cons_elim hpq
    cases pp with
    | nil =>
      simp only [List.nil_append, List.cons.injEq] at hq
      obtain ⟨rfl, rfl⟩ := hq
      obtain ⟨r, hr⟩ := hqt
      simp only [List.nil_eq, List.append_eq_nil] at hr
      exact absurd (by simp [hr.1]) hne
    | cons k1 p =>
      simp only [List.cons_append] at hq
      injection hq with hk1 hqt2
      subst hk1
      subst hqt2
      cases j with
      | obj lj =>
        cases hk : getKey lj k1 with
        | none => simp [setIns, hk] at h
        | some sub =>
          cases hs : setIns sub p k v with
          | error e => simp [setIns, hk, hs] at h
          | ok sub2 =>
            have hj2 : j2 = .obj (setKey lj k1 sub2) := by
              simpa [setIns, hk, hs] using h.symm
            subst hj2
            have hsub : jsGetPath sub kt = some (.obj l) := by
              simpa [jsGetPath, jsMember, hk] using hobj
            have hktne : kt ≠ p ++ [k] := fun hc => hne (by simp [hc])
            obtain ⟨l2, hl2⟩ := ih hs l hqt hktne hsub
            exact ⟨l2, by simp [jsGetPath, jsMember, getKey_setKey_self, hl2]⟩
      | null => simp [setIns] at h
      | bool b => simp [setIns] at h
      | num n => simp [setIns] at h
      | str s => simp [setIns] at h
      | arr xs => simp [setIns] at h

/-- One statement of the merge body: either a guarded in-place update or
an unguarded (possibly inserting) assignment. -/
inductive MergeOp where
  | upd (p : List String) (v : Json)
  | ins (pp : List String) (k : String) (v : Json)

def applyOp (j : Json) : MergeOp → Except Unit Json
  | .upd p v => .ok (updIn j p v)
  | .ins pp k v => setIns j pp k v

/-- Sequential execution of merge statements; an error (TypeError) aborts
the rest, matching JS control flow inside the try block. -/
def applyOps (j : Json) : List MergeOp → Except Unit Json
  | [] => .ok j
  | op :: ops =>
    match applyOp j op with
    | .ok j2 => applyOps j2 ops
    | .error e => .error e

/-- The update positions are mutually incomparable (no touched path is a
prefix of another). -/
def PathsIncomp (tp : List (List String)) : Prop :=
  ∀ p ∈ tp, ∀ q ∈ tp, p ≠ q → ¬ PathPref p q

/-- Relation between the pre-merge document and the document after a
prefix of the merge statements has run: every pre-existing non-object
value is unchanged or replaced by an allowed value at a touched path;
pre-existing objects stay objects; no key appears outside the
insertable positions; touched positions hold non-objects. -/
structure MergeInv (alw : List String → List Json) (tp wp : List (List String))
    (pre cur : Json) : Prop where
  val : ∀ ks v, jsGetPath pre ks = some v → v.isObj = false →
    jsGetPath cur ks = some v ∨
      (ks ∈ tp ∧ ∃ w, jsGetPath cur ks = some w ∧ w ∈ alw ks)
  objs : ∀ ks l, jsGetPath pre ks = some (.obj l) →
    ∃ l2, jsGetPath cur ks = some (.obj l2)
  noIns : ∀ ks, jsGetPath pre ks = none → jsGetPath cur ks = none ∨ ks ∈ wp
  leaf : ∀ p ∈ tp, ∀ w, jsGetPath cur p = some w → w.isObj = false

def OpOk (alw : List String → List Json) (tp wp : List (List String)) : MergeOp → Prop
  | .upd p v => p ∈ tp ∧ v ∈ alw p ∧ v.isObj = false
  | .ins pp k v =>
    (pp ++ [k]) ∈ tp ∧ (pp ++ [k]) ∈ wp ∧ v ∈ alw (pp ++ [k]) ∧ v.isObj = false

theorem mergeInv_init {alw : List String → List Json} {tp wp : List (List String)}
    {pre : Json}
    (hleaf : ∀ p ∈ tp, ∀ w, jsGetPath pre p = some w → w.isObj = false) :
    MergeInv alw tp wp pre pre :=
  ⟨fun _ _ h _ => Or.inl h, fun _ l h => ⟨l, h⟩, fun _ h => Or.inl h, hleaf⟩

theorem pathPref_strict_concat {ks pp : List String} {k : String}
    (h : PathPref ks (pp ++ [k])) (hne : ks ≠ pp ++ [k]) : PathPref ks pp := by
  obtain ⟨r, hr⟩ := h
  rcases List.eq_nil_or_concat r with rfl | ⟨q, b, rfl⟩
  · exact absurd (by simpa using hr) hne
  · rw [List.concat_eq_append, ← List.append_assoc] at hr
    have := List.append_inj' hr (by simp)
    exact ⟨q, this.1⟩

theorem mergeInv_upd {alw : List String → List Json} {tp wp : List (List String)}
    {pre cur : Json} (hinc : PathsIncomp tp)
    {p : List String} {v : Json} (hptp : p ∈ tp) (hval : v ∈ alw p)
    (hvo : v.isObj = false) (h : MergeInv alw tp wp pre cur) :
    MergeInv alw tp wp pre (updIn cur p v) := by
  constructor
  · intro ks u hpre huo
    by_cases hpk : PathPref p ks
    · by_cases hkp : PathPref ks p
      · have hk : ks = p := pathPref_antisymm hkp hpk
        subst hk
        rcases h.val ks u hpre huo with hcur | ⟨_, w, hw, _⟩
        · exact Or.inr ⟨hptp, v, updIn_get_self cur ks v u hcur, hval⟩
        · exact Or.inr ⟨hptp, v, updIn_get_self cur ks v w hw, hval⟩
      · have hne : p ≠ ks := fun hc => hkp (hc ▸ pathPref_refl ks)
        obtain ⟨lo, hlo⟩ := jsGetPath_strict_pref_obj hpk hne hpre
        obtain ⟨l2, hl2⟩ := h.objs p lo hlo
        have := h.leaf p hptp _ hl2
        simp [Json.isObj] at this
    · by_cases hkp : PathPref ks p
      · have hne : ks ≠ p := fun hc => hpk (hc ▸ pathPref_refl ks)
        rcases h.val ks u hpre huo with hcur | ⟨hks, _, _, _⟩
        · have hnone : jsGetPath cur p = none :=
            jsGetPath_none_of_pref_nonobj hkp hne hcur huo
          rw [updIn_none_id cur p v hnone]
          exact Or.inl hcur
        · exact absurd hkp (hinc ks hks p hptp hne)
      · rw [updIn_frame cur p ks v hpk hkp]
        exact h.val ks u hpre huo
  · intro ks l hpre
    by_cases hpk : PathPref p ks
    · by_cases hkp : PathPref ks p
      · have hk : ks = p := pathPref_antisymm hkp hpk
        subst hk
        obtain ⟨l2, hl2⟩ := h.objs ks l hpre
        have := h.leaf ks hptp _ hl2
        simp [Json.isObj] at this
      · have hne : p ≠ ks := fun hc => hkp (hc ▸ pathPref_refl ks)
        obtain ⟨lo, hlo⟩ := jsGetPath_strict_pref_obj hpk hne hpre
        obtain ⟨l2, hl2⟩ := h.objs p lo hlo
        have := h.leaf p hptp _ hl2
        simp [Json.isObj] at this
    · by_cases hkp : PathPref ks p
      · have hne : ks ≠ p := fun hc => hpk (hc ▸ pathPref_refl ks)
        obtain ⟨l2, hl2⟩ := h.objs ks l hpre
        exact updIn_obj_pref cur p ks v l2 hkp hne hl2
      · rw [updIn_frame cur p ks v hpk hkp]
        exact h.objs ks l hpre
  · intro ks hpre
    rcases h.noIns ks hpre with hn | hw
    · exact Or.inl (updIn_keeps_none cur p ks v hvo hn)
    · exact Or.inr hw
  · intro q hq w hpost
    by_cases hqp : q = p
    · subst hqp
      cases hc : jsGetPath cur q with
      | none =>
        rw [updIn_none_id cur q v hc, hc] at hpost
        cases hpost
      | some u =>
        rw [updIn_get_self cur q v u hc] at hpost
        cases hpost
        exact hvo
    · have h1 : ¬ PathPref p q := hinc p hptp q hq (Ne.symm hqp)
      have h2 : ¬ PathPref q p := hinc q hq p hptp hqp
      rw [updIn_frame cur p q v h1 h2] at hpost
      exact h.leaf q hq w hpost

theorem mergeInv_ins {alw : List String → List Json} {tp wp : List (List String)}
    {pre cur c2 : Json} (hinc : PathsIncomp tp)
    {pp : List String} {k : String} {v : Json}
    (hptp : pp ++ [k] ∈ tp) (hpwp : pp ++ [k] ∈ wp) (hval : v ∈ alw (pp ++ [k]))
    (hvo : v.isObj = false) (hok : setIns cur pp k v = .ok c2)
    (h : MergeInv alw tp wp pre cur) : MergeInv alw tp wp pre c2 := by
  constructor
  · intro ks u hpre huo
    by_cases hpk : PathPref (pp ++ [k]) ks
    · by_cases hkp : PathPref ks (pp ++ [k])
      · have hk : ks = pp ++ [k] := pathPref_antisymm hkp hpk
        subst hk
        exact Or.inr ⟨hptp, v, setIns_get_target hok, hval⟩
      · have hne : pp ++ [k] ≠ ks := fun hc => hkp (hc ▸ pathPref_refl ks)
        obtain ⟨lo, hlo⟩ := jsGetPath_strict_pref_obj hpk hne hpre
        obtain ⟨l2, hl2⟩ := h.objs _ lo hlo
        have := h.leaf _ hptp _ hl2
        simp [Json.isObj] at this
    · by_cases hkp : PathPref ks (pp ++ [k])
      · have hne : ks ≠ pp ++ [k] := fun hc => hpk (hc ▸ pathPref_refl ks)
        rcases h.val ks u hpre huo with hcur | ⟨hks, _, _, _⟩
        · obtain ⟨lo, hlo⟩ := setIns_parent_obj hok
          have hkspp : PathPref ks pp := pathPref_strict_concat hkp hne
          by_cases hkseq : ks = pp
          · subst hkseq
            rw [hcur] at hlo
            cases hlo
            simp [Json.isObj] at huo
          · have := jsGetPath_none_of_pref_nonobj hkspp hkseq hcur huo
            rw [this] at hlo
            cases hlo
        · exact absurd hkp (hinc ks hks _ hptp hne)
      · rw [setIns_frame hok ks hpk hkp]
        exact h.val ks u hpre huo
  · intro ks l hpre
    by_cases hpk : PathPref (pp ++ [k]) ks
    · by_cases hkp : PathPref ks (pp ++ [k])
      · have hk : ks = pp ++ [k] := pathPref_antisymm hkp hpk
        subst hk
        obtain ⟨l2, hl2⟩ := h.objs _ l hpre
        have := h.leaf _ hptp _ hl2
        simp [Json.isObj] at this
      · have hne : pp ++ [k] ≠ ks := fun hc => hkp (hc ▸ pathPref_refl ks)
        obtain ⟨lo, hlo⟩ := jsGetPath_strict_pref_obj hpk hne hpre
        obtain ⟨l2, hl2⟩ := h.objs _ lo hlo
        have := h.leaf _ hptp _ hl2
        simp [Json.isObj] at this
    · by_cases hkp : PathPref ks (pp ++ [k])
      · have hne : ks ≠ pp ++ [k] := fun hc => hpk (hc ▸ pathPref_refl ks)
        obtain ⟨l2, hl2⟩ := h.objs ks l hpre
        exact setIns_obj_pref hok ks l2 hkp hne hl2
      · rw [setIns_frame hok ks hpk hkp]
        exact h.objs ks l hpre
  · intro ks hpre
    rcases h.noIns ks hpre with hn | hw
    · rcases setIns_keeps_none hvo hok ks hn with hl | hr
      · exact Or.inl hl
      · exact Or.inr (hr ▸ hpwp)
    · exact Or.inr hw
  · intro q hq w hpost
    by_cases hqp : q = pp ++ [k]
    · subst hqp
      rw [setIns_get_target hok] at hpost
      cases hpost
      exact hvo
    · have h1 : ¬ PathPref (pp ++ [k]) q := hinc _ hptp q hq (fun hc => hqp hc.symm)
      have h2 : ¬ PathPref q (pp ++ [k]) := hinc q hq _ hptp hqp
      rw [setIns_frame hok q h1 h2] at hpost
      exact h.leaf q hq w hpost

theorem mergeInv_applyOps {alw : List String → List Json} {tp wp : List (List String)}
    {pre : Json} (hinc : PathsIncomp tp) :
    ∀ (ops : List MergeOp) (cur c2 : Json),
      (∀ op ∈ ops, OpOk alw tp wp op) → MergeInv alw tp wp pre cur →
      applyOps cur ops = .ok c2 → MergeInv alw tp wp pre c2 := by
  intro ops
  induction ops with
  | nil =>
    intro cur c2 _ h hok
    simp only [applyOps] at hok
    injection hok with hok
    exact hok ▸ h
  | cons op ops ih =>
    intro cur c2 hops h hok
    cases op with
    | upd p v =>
      obtain ⟨hptp, hval, hvo⟩ := hops _ (List.mem_cons_self _ _)
      simp only [applyOps, applyOp] at hok
      exact ih _ c2 (fun o ho => hops o (List.mem_cons_of_mem _ ho))
        (mergeInv_upd hinc hptp hval hvo h) hok
    | ins pp k v =>
      obtain ⟨hptp, hpwp, hval, hvo⟩ := hops _ (List.mem_cons_self _ _)
      simp only [applyOps, applyOp] at hok
      cases hs : setIns cur pp k v with
      | error e => rw [hs] at hok; cases hok
      | ok mid =>
        rw [hs] at hok
        exact ih _ c2 (fun o ho => hops o (List.mem_cons_of_mem _ ho))
          (mergeInv_ins hinc hptp hpwp hval hvo hs h) hok

/-- JS whitespace class `\s` (ASCII part; the CLI outputs scanned are
ASCII). -/
def isWsJs (c : Char) : Bool :=
  c = ' ' || c = '\t' || c = '\n' || c = '\r' || c = Char.ofNat 11 || c = Char.ofNat 12

/-- Match a literal at the current position, returning the rest. -/
def litAt : List Char → List Char → Option (List Char)
  | [], s => some s
  | _ :: _, [] => none
  | l :: ls, c :: cs => if c = l then litAt ls cs else none

/-- Case-insensitive literal match (the `/i` regex flag). -/
def litAtCI : List Char → List Char → Option (List Char)
  | [], s => some s
  | _ :: _, [] => none
  | l :: ls, c :: cs => if c.toLower = l.toLower then litAtCI ls cs else none

/-- Greedy nonempty character-class run `[cls]+` at the current position
(no backtracking is needed: every class used excludes the character that
must follow it). -/
def runAt (p : Char → Bool) (s : List Char) : Option (List Char × List Char) :=
  let r := s.takeWhile p
  if r.isEmpty then none else some (r, s.dropWhile p)

/-- Leftmost-match regex search: try the position matcher at every
position from the left (JS `String.prototype.match` semantics for the
patterns used, which are all literal/class-run compositions). -/
def searchPos (f : List Char → Option (List Char)) : List Char → Option (List Char)
  | [] => f []
  | c :: cs =>
    match f (c :: cs) with
    | some r => some r
    | none => searchPos f cs

/-- Position matcher for `A\s*B([cls]+)C` returning the captured run
(shape of both the plist and the web-config key regexes). -/
def keyValAt (A B : List Char) (cls : Char → Bool) (C : List Char)
    (s : List Char) : Option (List Char) :=
  match litAt A s with
  | none => none
  | some s1 =>
    match litAt B (s1.dropWhile isWsJs) with
    | none => none
    | some s3 =>
      match runAt cls s3 with
      | none => none
      | some (cap, s4) =>
        match litAt C s4 with
        | none => none
        | some _ => some cap

/-- `/<key>NAME<\/key>\s*<string>([^<]+)<\/string>/` applied to the
downloaded `GoogleService-Info.plist` text (route.ts 674-676). -/
def plistExtract (name content : String) : Option String :=
  (searchPos
    (keyValAt ("<key>" ++ name ++ "</key>").data "<string>".data
      (fun c => !(c = '<')) "</string>".data)
    content.data).map String.mk

/-- `/"name":\s*"([^"]+)"/` applied to the downloaded
`firebase-config.js` text (route.ts 743-749). -/
def webExtract (name content : String) : Option String :=
  (searchPos
    (keyValAt ("\"" ++ name ++ "\":").data ['"'] (fun c => !(c = '"')) ['"'])
    content.data).map String.mk

/-- The `[a-zA-Z0-9-]` class of the app-id patterns. -/
def idChar (c : Char) : Bool := c.isAlpha || c.isDigit || c = '-'

/-- Position matcher for the full Firebase app id shape
`[0-9]+:[0-9]+:[a-z]+:[a-zA-Z0-9]+` (route.ts patterns 1 and 4). -/
def fullIdAt (s : List Char) : Option (List Char) := do
  let (d1, s1) ← runAt Char.isDigit s
  let s2 ← litAt [':'] s1
  let (d2, s3) ← runAt Char.isDigit s2
  let s4 ← litAt [':'] s3
  let (d3, s5) ← runAt Char.isLower s4
  let s6 ← litAt [':'] s5
  let (d4, _) ← runAt (fun c => c.isAlpha || c.isDigit) s6
  pure (d1 ++ [':'] ++ d2 ++ [':'] ++ d3 ++ [':'] ++ d4)

/-- Position matcher for `([a-zA-Z0-9-]{20,})` (route.ts pattern 5). -/
def longRunAt (s : List Char) : Option (List Char) :=
  let r := s.takeWhile idChar
  if 20 ≤ r.length then some r else none

/-- The ordered candidate patterns of `extractAppId` (route.ts 469-477),
each as a position matcher returning its capture group. -/
def appIdPatterns : List (List Char → Option (List Char)) :=
  [ fun s => (litAt "App ID: ".data s).bind fullIdAt,
    fun s => ((litAt "App ID: ".data s).bind (runAt idChar)).map Prod.fst,
    fun s => ((litAtCI "App ID: ".data s).bind (runAt idChar)).map Prod.fst,
    fullIdAt,
    longRunAt,
    fun s => ((litAt "Created app ".data s).bind (runAt idChar)).map Prod.fst,
    fun s => ((litAt "App created: ".data s).bind (runAt idChar)).map Prod.fst ]

/-- The `for (const pattern of patterns)` loop: first pattern with a
match wins. -/
def firstMatch : List (List Char → Option (List Char)) → List Char → Option (List Char)
  | [], _ => none
  | p :: ps, s =>
    match searchPos p s with
    | some r => some r
    | none => firstMatch ps s

def wordsOfAux : List Char → List Char → List (List Char)
  | [], acc => if acc.isEmpty then [] else [acc.reverse]
  | c :: cs, acc =>
    if isWsJs c then
      if acc.isEmpty then wordsOfAux cs [] else acc.reverse :: wordsOfAux cs []
    else wordsOfAux cs (c :: acc)

/-- `output.split(/\s+/)` restricted to its nonempty tokens (the empty
tokens the JS split can produce at the ends never pass the length
check below). -/
def wordsOf (s : List Char) : List (List Char) := wordsOfAux s []

/-- The fallback token class `^[a-zA-Z0-9-:]+$` (route.ts 490). -/
def isIdTokenChar (c : Char) : Bool := c.isAlpha || c.isDigit || c = '-' || c = ':'

def isIdToken (w : List Char) : Bool := decide (15 < w.length) && w.all isIdTokenChar

/-- The `for (const word of words)` fallback loop: first sufficiently
long identifier-shaped token wins (route.ts 488-494). -/
def firstIdWord : List (List Char) → Option (List Char)
  | [] => none
  | w :: ws => if isIdToken w then some w else firstIdWord ws

/-- `extractAppId` (route.ts 465-498): ordered pattern list, first match
wins; otherwise the first long identifier-shaped whitespace token;
otherwise the sentinel. -/
def extractAppId (output : String) : String :=
  match firstMatch appIdPatterns output.data with
  | some r => String.mk r
  | none =>
    match firstIdWord (wordsOf output.data) with
    | some w => String.mk w
    | none => "unknown"

/-- Specification-level restatement of the (amended) extraction contract:
the first pattern of the ordered candidate list that matches anywhere
decides the result; with no pattern match, the earliest whitespace token
longer than 15 characters over `[a-zA-Z0-9-:]` is returned; with no such
token, the sentinel "unknown". -/
def extractAppIdSpec (output : String) : String :=
  match appIdPatterns.findSome? (fun p => searchPos p output.data) with
  | some r => String.mk r
  | none =>
    match (wordsOf output.data).find? isIdToken with
    | some w => String.mk w
    | none => "unknown"

/-- The longest identifier-shaped token of the output — what the claim
(as frozen) says the fallback returns. -/
def longestIdToken (output : String) : Option String :=
  ((wordsOf output.data).filter isIdToken).foldl
    (fun best w =>
      match best with
      | none => some w
      | some b => if b.length < w.length then some w else some b)
    none |>.map String.mk

/-- Per-platform app identifiers as returned by `createFirebaseApps`
(route.ts 383): the sentinel "unknown" marks a failed platform. -/
structure AppIds where
  ios : String
  android : String
  web : String

/-- The arguments of `updateAppConfigJson` (route.ts 594-600). -/
structure MergeArgs where
  projectId : String
  projectName : String
  orgDomain : String
  appIds : AppIds

/-- The files `updateAppConfigJson` reads, as the merge stage sees them.
For the two JSON files the pair carries the raw text together with the
result of the external `JSON.parse` builtin (`none` = parse throws). -/
structure MergeFs where
  appConfig : Option (String × Option Json)
  iosPlist : Option String
  androidFile : Option (String × Option Json)
  webJs : Option String

/-- `x || null` (route.ts 710-719): the extracted value when truthy,
JSON null otherwise (also when the property is absent). -/
def jsOrNull : Option Json → Json
  | some j => if j.truthy then j else .null
  | none => .null

/-- JS indexing `j[n]` for the `androidConfig.client[0]` access
(route.ts 717): array element, or the numeric-string property of an
object. -/
def jsIndex (j : Json) (n : Nat) : Option Json :=
  match j with
  | .arr xs => xs.get? n
  | .obj l => getKey l (toString n)
  | _ => none

/-- The guard chain `androidConfig.client && androidConfig.client[0] &&
androidConfig.client[0].client_info` (route.ts 717), returning the
client-info object when every link is truthy. -/
def clientInfo0 (aj : Json) : Option Json :=
  match jsMember aj "client" with
  | none => none
  | some cl =>
    if cl.truthy then
      match jsIndex cl 0 with
      | none => none
      | some c0 =>
        if c0.truthy then
          match jsMember c0 "client_info" with
          | none => none
          | some ci => if ci.truthy then some ci else none
        else none
    else none

/-- Emit one guarded update when the extraction matched (the
`if (match) { if (key !== undefined) key = match[1] }` statement pairs
of the ios section; the key-existence guard lives inside `updIn`). -/
def optUpd (p : List String) (f : Option String) : List MergeOp :=
  match f with
  | some v => [.upd p (.str v)]
  | none => []

/-- Emit one unguarded web-section assignment when the extraction
matched (route.ts 770-797: no key-existence check). -/
def optIns (k : String) (f : Option String) : List MergeOp :=
  match f with
  | some v => [.ins ["firebase", "web"] k (.str v)]
  | none => []

/-- Guard of the ios section (route.ts 669):
`existingConfig.firebase && existingConfig.firebase.ios && appIds.ios &&
appIds.ios !== 'unknown'`. -/
def iosGuard (cfg : Json) (a : MergeArgs) : Bool :=
  truthyOpt (jsGetPath cfg ["firebase"]) &&
  truthyOpt (jsGetPath cfg ["firebase", "ios"]) &&
  (a.appIds.ios != "") && (a.appIds.ios != "unknown")

/-- Guard of the android section (route.ts 701). -/
def androidGuard (cfg : Json) (a : MergeArgs) : Bool :=
  truthyOpt (jsGetPath cfg ["firebase"]) &&
  truthyOpt (jsGetPath cfg ["firebase", "android"]) &&
  (a.appIds.android != "") && (a.appIds.android != "unknown")

/-- Guard of the web section (route.ts 733). -/
def webGuard (cfg : Json) (a : MergeArgs) : Bool :=
  truthyOpt (jsGetPath cfg ["firebase"]) &&
  truthyOpt (jsGetPath cfg ["firebase", "web"]) &&
  (a.appIds.web != "") && (a.appIds.web != "unknown")

/-- The ios-section statements (route.ts 672-696), in source order. -/
def iosOps (a : MergeArgs) (content : String) : List MergeOp :=
  optUpd ["firebase", "ios", "apiKey"] (plistExtract "API_KEY" content) ++
  optUpd ["firebase", "ios", "messagingSenderId"] (plistExtract "GCM_SENDER_ID" content) ++
  optUpd ["firebase", "ios", "appId"] (plistExtract "GOOGLE_APP_ID" content) ++
  [.upd ["firebase", "ios", "projectId"] (.str a.projectId),
   .upd ["firebase", "ios", "storageBucket"] (.str (a.projectId ++ ".firebasestorage.app")),
   .upd ["firebase", "ios", "iosBundleId"]
     (.str ("com." ++ a.orgDomain ++ "." ++ a.projectName))]

/-- The android-section statements (route.ts 705-728), in source order. -/
def androidOps (a : MergeArgs) (aj : Json) : List MergeOp :=
  (match jsMember aj "project_info" with
   | some piv =>
     if piv.truthy then
       [.upd ["firebase", "android", "apiKey"] (jsOrNull (jsMember piv "api_key")),
        .upd ["firebase", "android", "messagingSenderId"]
          (jsOrNull (jsMember piv "project_number"))]
     else []
   | none => []) ++
  (match clientInfo0 aj with
   | some ci =>
     [.upd ["firebase", "android", "appId"] (jsOrNull (jsMember ci "mobilesdk_app_id"))]
   | none => []) ++
  [.upd ["firebase", "android", "projectId"] (.str a.projectId),
   .upd ["firebase", "android", "storageBucket"] (.str (a.projectId ++ ".firebasestorage.app"))]

/-- The web-section statements (route.ts 743-797), in source order. -/
def webOps (content : String) : List MergeOp :=
  optIns "apiKey" (webExtract "apiKey" content) ++
  optIns "authDomain" (webExtract "authDomain" content) ++
  optIns "projectId" (webExtract "projectId" content) ++
  optIns "storageBucket" (webExtract "storageBucket" content) ++
  optIns "messagingSenderId" (webExtract "messagingSenderId" content) ++
  optIns "appId" (webExtract "appId" content) ++
  optIns "measurementId" (webExtract "measurementId" content)

/-- Every position the merge body may write. -/
def mergeTouchedPaths : List (List String) :=
  [["app", "name"],
   ["firebase", "ios", "apiKey"], ["firebase", "ios", "messagingSenderId"],
   ["firebase", "ios", "appId"], ["firebase", "ios", "projectId"],
   ["firebase", "ios", "storageBucket"], ["firebase", "ios", "iosBundleId"],
   ["firebase", "android", "apiKey"], ["firebase", "android", "messagingSenderId"],
   ["firebase", "android", "appId"], ["firebase", "android", "projectId"],
   ["firebase", "android", "storageBucket"],
   ["firebase", "web", "apiKey"], ["firebase", "web", "authDomain"],
   ["firebase", "web", "projectId"], ["firebase", "web", "storageBucket"],
   ["firebase", "web", "messagingSenderId"], ["firebase", "web", "appId"],
   ["firebase", "web", "measurementId"]]

/-- The positions where the merge can insert a previously absent key
(exactly the unguarded web-section assignments). -/
def webInsertPaths : List (List String) :=
  [["firebase", "web", "apiKey"], ["firebase", "web", "authDomain"],
   ["firebase", "web", "projectId"], ["firebase", "web", "storageBucket"],
   ["firebase", "web", "messagingSenderId"], ["firebase", "web", "appId"],
   ["firebase", "web", "measurementId"]]

/-- The values the merge is allowed to put at each touched position,
computed from the same extractions the code performs. -/
def mergeAllowedNew (a : MergeArgs) (fsx : MergeFs) (p : List String) : List Json :=
  let iosEx := fun (name : String) =>
    match fsx.iosPlist with
    | some c => (match plistExtract name c with | some v => [Json.str v] | none => [])
    | none => []
  let webEx := fun (name : String) =>
    match fsx.webJs with
    | some c => (match webExtract name c with | some v => [Json.str v] | none => [])
    | none => []
  if p = ["app", "name"] then [.str a.projectName]
  else if p = ["firebase", "ios", "apiKey"] then iosEx "API_KEY"
  else if p = ["firebase", "ios", "messagingSenderId"] then iosEx "GCM_SENDER_ID"
  else if p = ["firebase", "ios", "appId"] then iosEx "GOOGLE_APP_ID"
  else if p = ["firebase", "ios", "projectId"] then [.str a.projectId]
  else if p = ["firebase", "ios", "storageBucket"] then
    [.str (a.projectId ++ ".firebasestorage.app")]
  else if p = ["firebase", "ios", "iosBundleId"] then
    [.str ("com." ++ a.orgDomain ++ "." ++ a.projectName)]
  else if p = ["firebase", "android", "apiKey"] then
    match fsx.androidFile with
    | some (_, some aj) =>
      (match jsMember aj "project_info" with
       | some piv => if piv.truthy then [jsOrNull (jsMember piv "api_key")] else []
       | none => [])
    | _ => []
  else if p = ["firebase", "android", "messagingSenderId"] then
    match fsx.androidFile with
    | some (_, some aj) =>
      (match jsMember aj "project_info" with
       | some piv => if piv.truthy then [jsOrNull (jsMember piv "project_number")] else []
       | none => [])
    | _ => []
  else if p = ["firebase", "android", "appId"] then
    match fsx.androidFile with
    | some (_, some aj) =>
      (match clientInfo0 aj with
       | some ci => [jsOrNull (jsMember ci "mobilesdk_app_id")]
       | none => [])
    | _ => []
  else if p = ["firebase", "android", "projectId"] then [.str a.projectId]
  else if p = ["firebase", "android", "storageBucket"] then
    [.str (a.projectId ++ ".firebasestorage.app")]
  else if p = ["firebase", "web", "apiKey"] then webEx "apiKey"
  else if p = ["firebase", "web", "authDomain"] then webEx "authDomain"
  else if p = ["firebase", "web", "projectId"] then webEx "projectId"
  else if p = ["firebase", "web", "storageBucket"] then webEx "storageBucket"
  else if p = ["firebase", "web", "messagingSenderId"] then webEx "messagingSenderId"
  else if p = ["firebase", "web", "appId"] then webEx "appId"
  else if p = ["firebase", "web", "measurementId"] then webEx "measurementId"
  else []

/-- `if (existingConfig.app?.name !== undefined) existingConfig.app.name
= projectName` (route.ts 663-665). -/
def mergeStepApp (cfg : Json) (a : MergeArgs) : Json :=
  updIn cfg ["app", "name"] (.str a.projectName)

/-- The ios block (route.ts 669-698): runs only under its guard and when
the downloaded plist file exists. -/
def mergeStepIos (cfg : Json) (a : MergeArgs) (fsx : MergeFs) : Except Unit Json :=
  if iosGuard cfg a then
    match fsx.iosPlist with
    | some content => applyOps cfg (iosOps a content)
    | none => .ok cfg
  else .ok cfg

/-- The android block (route.ts 701-730): `JSON.parse` of the downloaded
file throws on invalid JSON and propagates to the outer catch. -/
def mergeStepAndroid (cfg : Json) (a : MergeArgs) (fsx : MergeFs) : Except Unit Json :=
  if androidGuard cfg a then
    match fsx.androidFile with
    | some (_, some aj) => applyOps cfg (androidOps a aj)
    | some (_, none) => .error ()
    | none => .ok cfg
  else .ok cfg

/-- The web block (route.ts 733-817). -/
def mergeStepWeb (cfg : Json) (a : MergeArgs) (fsx : MergeFs) : Except Unit Json :=
  if webGuard cfg a then
    match fsx.webJs with
    | some content => applyOps cfg (webOps content)
    | none => .ok cfg
  else .ok cfg

/-- The whole document transformation of `updateAppConfigJson` on a
parsed configuration, in source order: app name, ios, android, web. -/
def mergeDoc (pre : Json) (fsx : MergeFs) (a : MergeArgs) : Except Unit Json :=
  match mergeStepIos (mergeStepApp pre a) a fsx with
  | .error e => .error e
  | .ok c2 =>
    match mergeStepAndroid c2 a fsx with
    | .error e => .error e
    | .ok c3 => mergeStepWeb c3 a fsx

/-- Outcome of `updateAppConfigJson` (route.ts 594-896): early return with
the file missing, early return on a parse failure, a completed merge with
the written document, or an exception absorbed by the outer catch. -/
inductive MergeFinal where
  | skippedMissing
  | skippedParse
  | wrote (post : Json)
  | caught

/-- `updateAppConfigJson`: existence check (613), read/parse with its own
try/catch (648-660), the merge body, and the outer catch (891-895) that
turns every internal error into a logged continuation. -/
def updateAppConfigJson (fsx : MergeFs) (a : MergeArgs) : MergeFinal :=
  match fsx.appConfig with
  | none => .skippedMissing
  | some (_, none) => .skippedParse
  | some (_, some pre) =>
    match mergeDoc pre fsx a with
    | .ok post => .wrote post
    | .error _ => .caught

/-- The data a merge-stage filesystem write carries: the new document
serialized back to the config path (route.ts 820-821), or the generated
typed-view artifact embedding it (route.ts 835-881). -/
inductive WriteData where
  | jsonDoc (j : Json)
  | tsArtifact (j : Json)

/-- The filesystem writes the merge stage performs, in order; every early
return and the caught-error path writes nothing (both writes sit after
the whole update body). -/
def mergeWrites : MergeFinal → List (String × WriteData)
  | .wrote post =>
    [("assets/config/app_config.json", .jsonDoc post), ("lib/app_config.ts", .tsArtifact post)]
  | _ => []

/-- The decision-relevant console messages of the merge stage. -/
def mergeMessages : MergeFinal → List String
  | .skippedMissing => ["Existing app_config.json not found in assets/config, skipping update..."]
  | .skippedParse => ["Could not parse existing app_config.json, skipping update"]
  | .wrote _ => ["Updated app_config.json in assets/config folder successfully"]
  | .caught => ["Failed to update app_config.json", "Continuing without updating app_config.json..."]

theorem touched_incomp : PathsIncomp mergeTouchedPaths := by
  unfold PathsIncomp
  decide

/-- Decidable form of the scalar-fields hypothesis: every enumerated
update position of the pre-merge document, when present, holds a
non-object (the spec's "scalar field" reading of those keys). -/
def scalarTouchedB (pre : Json) : Bool :=
  mergeTouchedPaths.all (fun p =>
    match jsGetPath pre p with
    | some w => !w.isObj
    | none => true)

theorem scalarTouchedB_leaf (pre : Json) (h : scalarTouchedB pre = true) :
    ∀ p ∈ mergeTouchedPaths, ∀ w, jsGetPath pre p = some w → w.isObj = false := by
  intro p hp w hw
  have h2 := List.all_eq_true.mp h p hp
  rw [hw] at h2
  simpa using h2

/-- Decidable form of the android-extraction hypothesis: the three
values the android section can write (each `x || null`) are non-objects
(true of every real `google-services.json`, whose candidate fields are
strings). -/
def androidScalarB (aj : Json) : Bool :=
  (match jsMember aj "project_info" with
   | some piv =>
     if piv.truthy then
       !(jsOrNull (jsMember piv "api_key")).isObj &&
       !(jsOrNull (jsMember piv "project_number")).isObj
     else true
   | none => true) &&
  (match clientInfo0 aj with
   | some ci => !(jsOrNull (jsMember ci "mobilesdk_app_id")).isObj
   | none => true)

def androidScalarOfFs (fsx : MergeFs) : Bool :=
  match fsx.androidFile with
  | some (_, some aj) => androidScalarB aj
  | _ => true


theorem allowedAt_appName (a : MergeArgs) (fsx : MergeFs) :
    mergeAllowedNew a fsx ["app", "name"] = [.str a.projectName] := rfl

theorem allowedAt_iosApiKey (a : MergeArgs) (fsx : MergeFs) (c : String)
    (h : fsx.iosPlist = some c) :
    mergeAllowedNew a fsx ["firebase", "ios", "apiKey"] =
      (match plistExtract "API_KEY" c with | some v => [.str v] | none => []) := by
  simp [mergeAllowedNew, h]

theorem allowedAt_iosSender (a : MergeArgs) (fsx : MergeFs) (c : String)
    (h : fsx.iosPlist = some c) :
    mergeAllowedNew a fsx ["firebase", "ios", "messagingSenderId"] =
      (match plistExtract "GCM_SENDER_ID" c with | some v => [.str v] | none => []) := by
  simp [mergeAllowedNew, h]

theorem allowedAt_iosAppId (a : MergeArgs) (fsx : MergeFs) (c : String)
    (h : fsx.iosPlist = some c) :
    mergeAllowedNew a fsx ["firebase", "ios", "appId"] =
      (match plistExtract "GOOGLE_APP_ID" c with | some v => [.str v] | none => []) := by
  simp [mergeAllowedNew, h]

theorem allowedAt_iosProjectId (a : MergeArgs) (fsx : MergeFs) :
    mergeAllowedNew a fsx ["firebase", "ios", "projectId"] = [.str a.projectId] := rfl

theorem allowedAt_iosBucket (a : MergeArgs) (fsx : MergeFs) :
    mergeAllowedNew a fsx ["firebase", "ios", "storageBucket"] =
      [.str (a.projectId ++ ".firebasestorage.app")] := rfl

theorem allowedAt_iosBundle (a : MergeArgs) (fsx : MergeFs) :
    mergeAllowedNew a fsx ["firebase", "ios", "iosBundleId"] =
      [.str ("com." ++ a.orgDomain ++ "." ++ a.projectName)] := rfl

theorem allowedAt_andApiKey (a : MergeArgs) (fsx : MergeFs) (c : String) (aj : Json)
    (h : fsx.androidFile = some (c, some aj)) :
    mergeAllowedNew a fsx ["firebase", "android", "apiKey"] =
      (match jsMember aj "project_info" with
       | some piv => if piv.truthy then [jsOrNull (jsMember piv "api_key")] else []
       | none => []) := by
  simp [mergeAllowedNew, h]

theorem allowedAt_andSender (a : MergeArgs) (fsx : MergeFs) (c : String) (aj : Json)
    (h : fsx.androidFile = some (c, some aj)) :
    mergeAllowedNew a fsx ["firebase", "android", "messagingSenderId"] =
      (match jsMember aj "project_info" with
       | some piv => if piv.truthy then [jsOrNull (jsMember piv "project_number")] else []
       | none => []) := by
  simp [mergeAllowedNew, h]

theorem allowedAt_andAppId (a : MergeArgs) (fsx : MergeFs) (c : String) (aj : Json)
    (h : fsx.androidFile = some (c, some aj)) :
    mergeAllowedNew a fsx ["firebase", "android", "appId"] =
      (match clientInfo0 aj with
       | some ci => [jsOrNull (jsMember ci "mobilesdk_app_id")]
       | none => []) := by
  simp [mergeAllowedNew, h]

theorem allowedAt_andProjectId (a : MergeArgs) (fsx : MergeFs) :
    mergeAllowedNew a fsx ["firebase", "android", "projectId"] = [.str a.projectId] := rfl

theorem allowedAt_andBucket (a : MergeArgs) (fsx : MergeFs) :
    mergeAllowedNew a fsx ["firebase", "android", "storageBucket"] =
      [.str (a.projectId ++ ".firebasestorage.app")] := rfl

theorem allowedAt_web (a : MergeArgs) (fsx : MergeFs) (c : String) (k : String)
    (h : fsx.webJs = some c)
    (hk : k ∈ ["apiKey", "authDomain", "projectId", "storageBucket",
               "messagingSenderId", "appId", "measurementId"]) :
    mergeAllowedNew a fsx ["firebase", "web", k] =
      (match webExtract k c with | some v => [.str v] | none => []) := by
  fin_cases hk <;> simp [mergeAllowedNew, h]

theorem optUpd_ok (a : MergeArgs) (fsx : MergeFs) (p : List String) (f : Option String)
    (htp : p ∈ mergeTouchedPaths)
    (halw : ∀ v, f = some v → Json.str v ∈ mergeAllowedNew a fsx p) :
    ∀ op ∈ optUpd p f, OpOk (mergeAllowedNew a fsx) mergeTouchedPaths webInsertPaths op := by
  intro op hop
  cases f with
  | none => simp [optUpd] at hop
  | some v =>
    simp only [optUpd, List.mem_singleton] at hop
    subst hop
    exact ⟨htp, halw v rfl, rfl⟩

theorem optIns_ok (a : MergeArgs) (fsx : MergeFs) (k : String) (f : Option String)
    (htp : ["firebase", "web", k] ∈ mergeTouchedPaths)
    (hwp : ["firebase", "web", k] ∈ webInsertPaths)
    (halw : ∀ v, f = some v → Json.str v ∈ mergeAllowedNew a fsx ["firebase", "web", k]) :
    ∀ op ∈ optIns k f, OpOk (mergeAllowedNew a fsx) mergeTouchedPaths webInsertPaths op := by
  intro op hop
  cases f with
  | none => simp [optIns] at hop
  | some v =>
    simp only [optIns, List.mem_singleton] at hop
    subst hop
    exact ⟨htp, hwp, halw v rfl, rfl⟩

theorem iosOps_ok (a : MergeArgs) (fsx : MergeFs) (content : String)
    (hfs : fsx.iosPlist = some content) :
    ∀ op ∈ iosOps a content,
      OpOk (mergeAllowedNew a fsx) mergeTouchedPaths webInsertPaths op := by
  intro op hop
  simp only [iosOps, List.mem_append] at hop
  rcases hop with (((h | h) | h) | h)
  · refine optUpd_ok a fsx ["firebase", "ios", "apiKey"] (plistExtract "API_KEY" content)
      (by simp [mergeTouchedPaths]) (fun v hv => ?_) op h
    rw [allowedAt_iosApiKey a fsx content hfs, hv]
    simp
  · refine optUpd_ok a fsx ["firebase", "ios", "messagingSenderId"]
      (plistExtract "GCM_SENDER_ID" content)
      (by simp [mergeTouchedPaths]) (fun v hv => ?_) op h
    rw [allowedAt_iosSender a fsx content hfs, hv]
    simp
  · refine optUpd_ok a fsx ["firebase", "ios", "appId"] (plistExtract "GOOGLE_APP_ID" content)
      (by simp [mergeTouchedPaths]) (fun v hv => ?_) op h
    rw [allowedAt_iosAppId a fsx content hfs, hv]
    simp
  · simp only [List.mem_cons, List.mem_singleton, List.not_mem_nil, or_false] at h
    rcases h with rfl | rfl | rfl
    · exact ⟨by simp [mergeTouchedPaths], by rw [allowedAt_iosProjectId]; simp, rfl⟩
    · exact ⟨by simp [mergeTouchedPaths], by rw [allowedAt_iosBucket]; simp, rfl⟩
    · exact ⟨by simp [mergeTouchedPaths], by rw [allowedAt_iosBundle]; simp, rfl⟩

theorem webOps_ok (a : MergeArgs) (fsx : MergeFs) (content : String)
    (hfs : fsx.webJs = some content) :
    ∀ op ∈ webOps content,
      OpOk (mergeAllowedNew a fsx) mergeTouchedPaths webInsertPaths op := by
  intro op hop
  simp only [webOps, List.mem_append] at hop
  rcases hop with ((((((h | h) | h) | h) | h) | h) | h)
  · refine optIns_ok a fsx "apiKey" (webExtract "apiKey" content)
      (by simp [mergeTouchedPaths]) (by simp [webInsertPaths]) (fun v hv => ?_) op h
    rw [allowedAt_web a fsx content "apiKey" hfs (by simp), hv]
    simp
  · refine optIns_ok a fsx "authDomain" (webExtract "authDomain" content)
      (by simp [mergeTouchedPaths]) (by simp [webInsertPaths]) (fun v hv => ?_) op h
    rw [allowedAt_web a fsx content "authDomain" hfs (by simp), hv]
    simp
  · refine optIns_ok a fsx "projectId" (webExtract "projectId" content)
      (by simp [mergeTouchedPaths]) (by simp [webInsertPaths]) (fun v hv => ?_) op h
    rw [allowedAt_web a fsx content "projectId" hfs (by simp), hv]
    simp
  · refine optIns_ok a fsx "storageBucket" (webExtract "storageBucket" content)
      (by simp [mergeTouchedPaths]) (by simp [webInsertPaths]) (fun v hv => ?_) op h
    rw [allowedAt_web a fsx content "storageBucket" hfs (by simp), hv]
    simp
  · refine optIns_ok a fsx "messagingSenderId" (webExtract "messagingSenderId" content)
      (by simp [mergeTouchedPaths]) (by simp [webInsertPaths]) (fun v hv => ?_) op h
    rw [allowedAt_web a fsx content "messagingSenderId" hfs (by simp), hv]
    simp
  · refine optIns_ok a fsx "appId" (webExtract "appId" content)
      (by simp [mergeTouchedPaths]) (by simp [webInsertPaths]) (fun v hv => ?_) op h
    rw [allowedAt_web a fsx content "appId" hfs (by simp), hv]
    simp
  · refine optIns_ok a fsx "measurementId" (webExtract "measurementId" content)
      (by simp [mergeTouchedPaths]) (by simp [webInsertPaths]) (fun v hv => ?_) op h
    rw [allowedAt_web a fsx content "measurementId" hfs (by simp), hv]
    simp

theorem androidOps_ok (a : MergeArgs) (fsx : MergeFs) (content : String) (aj : Json)
    (hfs : fsx.androidFile = some (content, some aj))
    (hsc : androidScalarB aj = true) :
    ∀ op ∈ androidOps a aj,
      OpOk (mergeAllowedNew a fsx) mergeTouchedPaths webInsertPaths op := by
  have hsc2 := hsc
  simp only [androidScalarB, Bool.and_eq_true] at hsc2
  obtain ⟨hscA, hscB⟩ := hsc2
  intro op hop
  simp only [androidOps, List.mem_append] at hop
  rcases hop with ((h | h) | h)
  · cases hpi : jsMember aj "project_info" with
    | none => simp only [hpi] at h; simp at h
    | some piv =>
      simp only [hpi] at h hscA
      by_cases hpt : piv.truthy
      · simp only [if_pos hpt, Bool.and_eq_true] at h hscA
        simp only [List.mem_cons, List.mem_singleton, List.not_mem_nil, or_false] at h
        rcases h with rfl | rfl
        · refine ⟨by simp [mergeTouchedPaths], ?_, by simpa using hscA.1⟩
          rw [allowedAt_andApiKey a fsx content aj hfs]
          simp [hpi, hpt]
        · refine ⟨by simp [mergeTouchedPaths], ?_, by simpa using hscA.2⟩
          rw [allowedAt_andSender a fsx content aj hfs]
          simp [hpi, hpt]
      · simp only [if_neg hpt] at h; simp at h
  · cases hci : clientInfo0 aj with
    | none => simp only [hci] at h; simp at h
    | some ci =>
      simp only [hci] at h hscB
      simp only [List.mem_singleton] at h
      subst h
      refine ⟨by simp [mergeTouchedPaths], ?_, by simpa using hscB⟩
      rw [allowedAt_andAppId a fsx content aj hfs]
      simp [hci]
  · simp only [List.mem_cons, List.mem_singleton, List.not_mem_nil, or_false] at h
    rcases h with rfl | rfl
    · exact ⟨by simp [mergeTouchedPaths], by rw [allowedAt_andProjectId]; simp, rfl⟩
    · exact ⟨by simp [mergeTouchedPaths], by rw [allowedAt_andBucket]; simp, rfl⟩

theorem mergeStepApp_inv (a : MergeArgs) (fsx : MergeFs) {pre cur : Json}
    (h : MergeInv (mergeAllowedNew a fsx) mergeTouchedPaths webInsertPaths pre cur) :
    MergeInv (mergeAllowedNew a fsx) mergeTouchedPaths webInsertPaths pre
      (mergeStepApp cur a) :=
  mergeInv_upd touched_incomp (by simp [mergeTouchedPaths])
    (by rw [allowedAt_appName]; simp) rfl h

theorem mergeStepIos_inv (a : MergeArgs) (fsx : MergeFs) {pre cur c2 : Json}
    (hok : mergeStepIos cur a fsx = .ok c2)
    (h : MergeInv (mergeAllowedNew a fsx) mergeTouchedPaths webInsertPaths pre cur) :
    MergeInv (mergeAllowedNew a fsx) mergeTouchedPaths webInsertPaths pre c2 := by
  unfold mergeStepIos at hok
  split at hok
  · cases heq : fsx.iosPlist with
    | some content =>
      simp only [heq] at hok
      exact mergeInv_applyOps touched_incomp _ cur c2 (iosOps_ok a fsx content heq) h hok
    | none =>
      simp only [heq] at hok
      injection hok with hok
      exact hok ▸ h
  · injection hok with hok
    exact hok ▸ h

theorem mergeStepAndroid_inv (a : MergeArgs) (fsx : MergeFs) {pre cur c2 : Json}
    (hA : androidScalarOfFs fsx = true)
    (hok : mergeStepAndroid cur a fsx = .ok c2)
    (h : MergeInv (mergeAllowedNew a fsx) mergeTouchedPaths webInsertPaths pre cur) :
    MergeInv (mergeAllowedNew a fsx) mergeTouchedPaths webInsertPaths pre c2 := by
  unfold mergeStepAndroid at hok
  split at hok
  · cases heq : fsx.androidFile with
    | some pair =>
      obtain ⟨content, pj⟩ := pair
      cases pj with
      | some aj =>
        simp only [heq] at hok
        have hsc : androidScalarB aj = true := by
          simpa [androidScalarOfFs, heq] using hA
        exact mergeInv_applyOps touched_incomp _ cur c2
          (androidOps_ok a fsx content aj heq hsc) h hok
      | none =>
        simp only [heq] at hok
        exact Except.noConfusion hok
    | none =>
      simp only [heq] at hok
      injection hok with hok
      exact hok ▸ h
  · injection hok with hok
    exact hok ▸ h

theorem mergeStepWeb_inv (a : MergeArgs) (fsx : MergeFs) {pre cur c2 : Json}
    (hok : mergeStepWeb cur a fsx = .ok c2)
    (h : MergeInv (mergeAllowedNew a fsx) mergeTouchedPaths webInsertPaths pre cur) :
    MergeInv (mergeAllowedNew a fsx) mergeTouchedPaths webInsertPaths pre c2 := by
  unfold mergeStepWeb at hok
  split at hok
  · cases heq : fsx.webJs with
    | some content =>
      simp only [heq] at hok
      exact mergeInv_applyOps touched_incomp _ cur c2 (webOps_ok a fsx content heq) h hok
    | none =>
      simp only [heq] at hok
      injection hok with hok
      exact hok ▸ h
  · injection hok with hok
    exact hok ▸ h

/-- Master characterization of a completed merge: the invariant holds
between the parsed pre-merge document and the written one. -/
theorem mergeDoc_inv (pre : Json) (fsx : MergeFs) (a : MergeArgs) (post : Json)
    (hA : androidScalarOfFs fsx = true) (hS : scalarTouchedB pre = true)
    (hok : mergeDoc pre fsx a = .ok post) :
    MergeInv (mergeAllowedNew a fsx) mergeTouchedPaths webInsertPaths pre post := by
  unfold mergeDoc at hok
  cases h2 : mergeStepIos (mergeStepApp pre a) a fsx with
  | error e => simp only [h2] at hok; exact Except.noConfusion hok
  | ok c2 =>
    simp only [h2] at hok
    cases h3 : mergeStepAndroid c2 a fsx with
    | error e => simp only [h3] at hok; exact Except.noConfusion hok
    | ok c3 =>
      simp only [h3] at hok
      have i0 : MergeInv (mergeAllowedNew a fsx) mergeTouchedPaths webInsertPaths pre pre :=
        mergeInv_init (scalarTouchedB_leaf pre hS)
      have i1 := mergeStepApp_inv a fsx i0
      have i2 := mergeStepIos_inv a fsx h2 i1
      have i3 := mergeStepAndroid_inv a fsx hA h3 i2
      exact mergeStepWeb_inv a fsx hok i3

/-- JS `String.prototype.substring(a, b)` for the call site
`Math.random().toString(36).substring(2, 8)` (route.ts 336): character
range `[a, b)`, clamped to the string's length. -/
def jsSubstring (s : String) (a b : Nat) : String :=
  String.mk ((s.data.drop a).take (b - a))

/-- A candidate provisioning-project id
`${projectName}-${Math.random().toString(36).substring(2, 8)}`
(route.ts 336 and 346), parameterized by the string the JS runtime
printed for `Math.random().toString(36)`. -/
def candidateProjectId (projectName rnd : String) : String :=
  projectName ++ "-" ++ jsSubstring rnd 2 8

/-- The base-36 digit alphabet of `Number.prototype.toString(36)`. -/
def base36Char (c : Char) : Bool := c.isDigit || c.isLower

/-- What the JS runtime guarantees about `Math.random().toString(36)`:
the value is in `[0, 1)`, so the printed form is "0" or "0." followed by
a nonempty shortest base-36 fraction (no trailing zero digit). -/
def jsRandWf (s : String) : Prop :=
  s = "0" ∨ ∃ ds : List Char, s.data = '0' :: '.' :: ds ∧ ds ≠ [] ∧
    ds.all base36Char = true ∧ ds.getLast? ≠ some (('0' : Char))

/-- The pattern `<name>-[a-z0-9]{6}` the claim asserts for every
candidate id: the name, a hyphen, then exactly six base-36 characters. -/
def matchesProjectIdPattern (name pid : String) : Bool :=
  (pid.data.take (name.length + 1) = name.data ++ ['-'] : Bool) &&
  (pid.data.drop (name.length + 1)).length = 6 &&
  (pid.data.drop (name.length + 1)).all base36Char

/-- `!githubToken || githubToken === 'your_github_personal_access_token_here'`
(route.ts 1085, 1177), negated: the token check both the clone stage and
the private-repo stage perform. -/
def githubTokenValid (pat : String) : Bool :=
  pat != "" && pat != "your_github_personal_access_token_here"

/-- A POST request body (route.ts 89). -/
structure ProjectRequest where
  projectName : String
  orgDomain : String
  templateRepo : String
  templateBranch : String
  firebaseAccount : String

/-- The request validation of the POST handler (route.ts 92-105): all
five fields truthy and the project name matching `^[a-z0-9-]+$`. -/
def validRequest (r : ProjectRequest) : Bool :=
  r.projectName != "" && r.orgDomain != "" && r.templateRepo != "" &&
  r.templateBranch != "" && r.firebaseAccount != "" &&
  r.projectName.data.all (fun c => c.isLower || c.isDigit || c = '-')

/-- Oracles for every external collaborator call of one pipeline run:
git and firebase CLI outcomes, downloaded payloads, the GitHub API, the
template workspace's relevant files, the `JSON.parse` builtin, and the
clock. -/
structure PipelineEnv where
  githubPat : String
  cloneOk : Bool
  projOk : Nat → Bool
  projRand : Nat → String
  iosCreateOut : Option String
  androidCreateOut : Option String
  webCreateOut : Option String
  firestoreCreateOk : Bool
  rulesDeployOk : Bool
  dlIos : Option String
  dlAndroid : Option String
  dlWeb : Option String
  tmplAppConfig : Option String
  tmplAppConfigParse : Option Json
  tmplIosPlist : Option String
  tmplAndroidJson : Option String
  tmplWebJs : Option String
  androidParse : Option Json
  statusBeforeOk : Bool
  addOk : Bool
  statusAfterOk : Bool
  statusAfterOut : String
  commitOk : Bool
  logOk : Bool
  repoApi : Option String
  remoteAddOk : Bool
  pushMainOk : Bool
  tagRevParseOk : Bool
  tagCreateOk : Bool
  tagPushOk : Bool
  dateStr : String
  nowMs : String
  responseDateStr : String

/-- `createFirebaseProject` (route.ts 334-374): up to three attempts,
each with a freshly generated candidate id; `none` means all three
attempts failed and the stage throws. -/
def createFirebaseProjectS (e : PipelineEnv) (req : ProjectRequest) : Option String :=
  if e.projOk 1 then some (candidateProjectId req.projectName (e.projRand 1))
  else if e.projOk 2 then some (candidateProjectId req.projectName (e.projRand 2))
  else if e.projOk 3 then some (candidateProjectId req.projectName (e.projRand 3))
  else none

/-- The identifier set `createFirebaseApps` accumulates (route.ts
383-462): a caught creation failure leaves "unknown"; a successful call
goes through `extractAppId` on its stdout. -/
def appIdsOf (e : PipelineEnv) : AppIds where
  ios := match e.iosCreateOut with | some out => extractAppId out | none => "unknown"
  android := match e.androidCreateOut with | some out => extractAppId out | none => "unknown"
  web := match e.webCreateOut with | some out => extractAppId out | none => "unknown"

def successfulApps (ids : AppIds) : Nat :=
  (if ids.ios != "unknown" then 1 else 0) +
  (if ids.android != "unknown" then 1 else 0) +
  (if ids.web != "unknown" then 1 else 0)

/-- `createFirebaseApps` (route.ts 376-463): `none` is the
`successfulApps === 0` throw. -/
def createFirebaseAppsS (e : PipelineEnv) : Option AppIds :=
  let ids := appIdsOf e
  if successfulApps ids = 0 then none else some ids

/-- The content a platform config path holds when the merge stage runs:
the downloaded payload when the download happened (route.ts 573-589),
else whatever the template provided. -/
def effectiveFile (created : Bool) (dl tmpl : Option String) : Option String :=
  match (if created then dl else none) with
  | some c => some c
  | none => tmpl

/-- The filesystem `updateAppConfigJson` sees after
`downloadFirebaseConfigs` ran. -/
def buildMergeFs (e : PipelineEnv) (ids : AppIds) : MergeFs where
  appConfig :=
    match e.tmplAppConfig with
    | some c => some (c, e.tmplAppConfigParse)
    | none => none
  iosPlist := effectiveFile ((ids.ios != "") && (ids.ios != "unknown")) e.dlIos e.tmplIosPlist
  androidFile :=
    match effectiveFile ((ids.android != "") && (ids.android != "unknown"))
        e.dlAndroid e.tmplAndroidJson with
    | some c => some (c, e.androidParse)
    | none => none
  webJs := effectiveFile ((ids.web != "") && (ids.web != "unknown")) e.dlWeb e.tmplWebJs

/-- JS `String.prototype.trim()` (executable model; `String.trim` of the
library does not reduce definitionally). -/
def jsTrim (s : String) : String :=
  String.mk (((s.data.dropWhile isWsJs).reverse.dropWhile isWsJs).reverse)

/-- `commitAndPushChanges` (route.ts 898-971): any git failure is
rethrown by its catch (967-970); a clean tree after `git add` skips the
commit.  `none` models the rethrow. -/
def commitAndPushChangesS (e : PipelineEnv) : Option String :=
  if !e.statusBeforeOk then none
  else if !e.addOk then none
  else if !e.statusAfterOk then none
  else if jsTrim e.statusAfterOut != "" then
    if !e.commitOk then none
    else if !e.logOk then none
    else some "Changes committed to local repository"
  else some "Changes committed to local repository"

/-- `createPrivateRepository` (route.ts 1081-1135): returns the repo URL
and the git pushes it attempted; every failure is caught and yields the
empty URL. -/
def createPrivateRepositoryS (e : PipelineEnv) : String × List (String × String) :=
  if !(githubTokenValid e.githubPat) then ("", [])
  else
    match e.repoApi with
    | none => ("", [])
    | some fullName =>
      if !e.remoteAddOk then ("", [])
      else if !e.pushMainOk then ("", [("new-origin", "main")])
      else ("https://github.com/" ++ fullName, [("new-origin", "main")])

/-- `createBaseBuildTag` (route.ts 1137-1172): date-named tag, a
timestamp-suffixed variant when `git rev-parse` finds the name taken;
the annotated tag is then pushed to the remote named "origin" — the
clone's remote, i.e. the template repository.  Failures are caught. -/
def createBaseBuildTagS (e : PipelineEnv) : Option String × List (String × String) :=
  let tagName :=
    if e.tagRevParseOk then "base-build-" ++ e.dateStr ++ "-" ++ e.nowMs
    else "base-build-" ++ e.dateStr
  if !e.tagCreateOk then (none, [])
  else (some tagName, [("origin", tagName)])

/-- The pipeline stages, named for the fatal-error tagging. -/
inductive Stage where
  | clone
  | rename
  | configFiles
  | projectCreate
  | appsCreate
  | firestore
  | download
  | mergeConfig
  | commit
  | privateRepo
  | tag
deriving DecidableEq

/-- The record the success response carries (route.ts 165-174), plus the
run's observable git pushes and the merge outcome. -/
structure PipelineResult where
  projectName : String
  firebaseProjectId : String
  newRepoUrl : String
  baseBuildTag : String
  createdTag : Option String
  appIds : AppIds
  pushes : List (String × String)
  mergeResult : MergeFinal

inductive PipelineOutcome where
  | rejected
  | fatal (stage : Stage)
  | success (res : PipelineResult)

def PipelineOutcome.isFatal : PipelineOutcome → Bool
  | .fatal _ => true
  | _ => false

def PipelineOutcome.fatalStage : PipelineOutcome → Option Stage
  | .fatal st => some st
  | _ => none

/-- The POST handler's stage sequence (route.ts 28-191): validation,
then clone → rename → provisioning project → apps → firestore →
downloads → config merge → commit → private repo → tag, with the
outer catch turning any stage throw into the fatal 500 response and the
tolerated stages absorbing their own failures. -/
def runCreateProject (e : PipelineEnv) (req : ProjectRequest) : PipelineOutcome :=
  if !(validRequest req) then .rejected
  else if !(githubTokenValid e.githubPat) then .fatal .clone
  else if !e.cloneOk then .fatal .clone
  else
    match createFirebaseProjectS e req with
    | none => .fatal .projectCreate
    | some pid =>
      match createFirebaseAppsS e with
      | none => .fatal .appsCreate
      | some ids =>
        let fsx := buildMergeFs e ids
        let m := updateAppConfigJson fsx
          { projectId := pid, projectName := req.projectName,
            orgDomain := req.orgDomain, appIds := ids }
        match commitAndPushChangesS e with
        | none => .fatal .commit
        | some _ =>
          let repo := createPrivateRepositoryS e
          let tag := createBaseBuildTagS e
          .success
            { projectName := req.projectName
              firebaseProjectId := pid
              newRepoUrl := repo.1
              baseBuildTag := "base-build-" ++ e.responseDateStr
              createdTag := tag.1
              appIds := ids
              pushes := repo.2 ++ tag.2
              mergeResult := m }

/-- All three provisioning-project creation attempts failed (route.ts
345-371). -/
def allProjectAttemptsFail (e : PipelineEnv) : Bool :=
  !e.projOk 1 && !e.projOk 2 && !e.projOk 3

/-- Some git operation of the commit stage throws (route.ts 911-954):
status, add, the post-add status, or — when the tree is dirty — the
commit or the log call. -/
def commitStageFails (e : PipelineEnv) : Bool :=
  !e.statusBeforeOk || !e.addOk || !e.statusAfterOk ||
  (jsTrim e.statusAfterOut != "" && (!e.commitOk || !e.logOk))

theorem createFirebaseProjectS_isNone (e : PipelineEnv) (req : ProjectRequest) :
    (createFirebaseProjectS e req).isNone = allProjectAttemptsFail e := by
  unfold createFirebaseProjectS allProjectAttemptsFail
  cases h1 : e.projOk 1 <;> cases h2 : e.projOk 2 <;> cases h3 : e.projOk 3 <;>
    simp [h1, h2, h3]

theorem commitAndPushChangesS_isNone (e : PipelineEnv) :
    (commitAndPushChangesS e).isNone = commitStageFails e := by
  unfold commitAndPushChangesS commitStageFails
  cases h1 : e.statusBeforeOk <;> cases h2 : e.addOk <;> cases h3 : e.statusAfterOk <;>
    cases h4 : (jsTrim e.statusAfterOut != "") <;> cases h5 : e.commitOk <;>
      cases h6 : e.logOk <;> simp [h1, h2, h3, h4, h5, h6]

/-- A request passing validation, as in the spec's end-to-end scenario. -/
def c5req : ProjectRequest :=
  { projectName := "acme-app", orgDomain := "acme", templateRepo := "org/template",
    templateBranch := "main", firebaseAccount := "dev@acme.com" }

/-- An environment where every external call succeeds except the
`git commit` of the commit stage. -/
def c5env : PipelineEnv :=
  { githubPat := "ghp-token-123"
    cloneOk := true
    projOk := fun n => n == 1
    projRand := fun _ => "0.k3j9x2a"
    iosCreateOut := some "App ID: 1:23:ios:abc"
    androidCreateOut := none
    webCreateOut := none
    firestoreCreateOk := true
    rulesDeployOk := true
    dlIos := none
    dlAndroid := none
    dlWeb := none
    tmplAppConfig := none
    tmplAppConfigParse := none
    tmplIosPlist := none
    tmplAndroidJson := none
    tmplWebJs := none
    androidParse := none
    statusBeforeOk := true
    addOk := true
    statusAfterOk := true
    statusAfterOut := "M x"
    commitOk := false
    logOk := true
    repoApi := some "acme/acme-app"
    remoteAddOk := true
    pushMainOk := true
    tagRevParseOk := false
    tagCreateOk := true
    tagPushOk := true
    dateStr := "2025-06-01"
    nowMs := "1718000000000"
    responseDateStr := "2025-06-02" }

/-- C5 counterexample: a run in which the clone succeeded, the
provisioning project was created on the first attempt and one app
creation succeeded, yet the pipeline aborts — because the commit stage
rethrows its git failure (route.ts 967-970), contradicting the claim
that commit failures are tolerated. -/
theorem c5_counterexample :
    runCreateProject c5env c5req = .fatal .commit ∧
    c5env.cloneOk = true ∧ githubTokenValid c5env.githubPat = true ∧
    allProjectAttemptsFail c5env = false ∧
    (createFirebaseAppsS c5env).isNone = false :=
  ⟨rfl, rfl, rfl, rfl, rfl⟩

/-- C5 (amended): for a validated request, a run is fatal exactly when
the clone fails (including a missing GitHub token), all three
provisioning-project attempts fail, zero apps are created, or the commit
stage fails; substitution, database provisioning, config download,
merge, private-repo creation and tagging failures never abort. -/
theorem c5_amended_fatal_iff (e : PipelineEnv) (req : ProjectRequest) :
    (runCreateProject e req).isFatal =
      (validRequest req &&
        (!(githubTokenValid e.githubPat) || !e.cloneOk ||
         allProjectAttemptsFail e || (createFirebaseAppsS e).isNone ||
         commitStageFails e)) := by
  unfold runCreateProject
  cases hv : validRequest req
  · simp [hv, PipelineOutcome.isFatal]
  · cases hg : githubTokenValid e.githubPat
    · simp [hv, hg, PipelineOutcome.isFatal]
    · cases hc : e.cloneOk
      · simp [hv, hg, hc, PipelineOutcome.isFatal]
      · cases hp : createFirebaseProjectS e req with
        | none =>
          have hap : allProjectAttemptsFail e = true := by
            rw [← createFirebaseProjectS_isNone e req, hp]
            rfl
          simp [hv, hg, hc, hp, hap, PipelineOutcome.isFatal]
        | some pid =>
          have hap : allProjectAttemptsFail e = false := by
            rw [← createFirebaseProjectS_isNone e req, hp]
            rfl
          cases ha : createFirebaseAppsS e with
          | none => simp [hv, hg, hc, hp, hap, ha, PipelineOutcome.isFatal]
          | some ids =>
            cases hcm : commitAndPushChangesS e with
            | none =>
              have hcf : commitStageFails e = true := by
                rw [← commitAndPushChangesS_isNone e, hcm]
                rfl
              simp [hv, hg, hc, hp, hap, ha, hcm, hcf, PipelineOutcome.isFatal]
            | some msg =>
              have hcf : commitStageFails e = false := by
                rw [← commitAndPushChangesS_isNone e, hcm]
                rfl
              simp [hv, hg, hc, hp, hap, ha, hcm, hcf, PipelineOutcome.isFatal]

/-- A pre-merge configuration whose android section has an `apiKey`. -/
def c1pre : Json :=
  .obj [("firebase", .obj [("android", .obj [("apiKey", .str "OLD")])])]

/-- The parsed downloaded android payload: `project_info` exists but
carries no `api_key` field. -/
def c1androidPayload : Json :=
  .obj [("project_info", .obj [("project_number", .str "99")])]

def c1fs : MergeFs :=
  { appConfig := some ("\x7b...\x7d", some c1pre)
    iosPlist := none
    androidFile :=
      some ("\x7b \"project_info\": \x7b \"project_number\": \"99\" \x7d \x7d",
        some c1androidPayload)
    webJs := none }

def c1args : MergeArgs :=
  { projectId := "acme-app-ab12cd", projectName := "acme-app", orgDomain := "acme",
    appIds := { ios := "unknown", android := "1:99:android:abc", web := "unknown" } }

def c1post : Json :=
  match mergeDoc c1pre c1fs c1args with
  | .ok j => j
  | .error _ => .null

/-- C1 counterexample: the merge completes and keeps the android
`apiKey` key present, but sets it to JSON null — neither its original
value nor any extracted value, since the downloaded payload has no
`api_key` field (route.ts 710: `api_key || null`).  The claim's value
clause is false at this input. -/
theorem c1_counterexample :
    mergeDoc c1pre c1fs c1args = .ok c1post ∧
    jsGetPath c1pre ["firebase", "android", "apiKey"] = some (.str "OLD") ∧
    jsGetPath c1post ["firebase", "android", "apiKey"] = some Json.null ∧
    Json.null ≠ Json.str "OLD" ∧
    jsGetPath c1androidPayload ["project_info", "api_key"] = none :=
  ⟨rfl, rfl, rfl, fun h => Json.noConfusion h, rfl⟩

/-- C1 (amended): for every config merge that completes on a document
whose enumerated update positions hold scalars (and whose android
extraction yields scalars), every key present pre-merge is present
post-merge, and every scalar value is either unchanged or one of the
values the code extracts or derives for that position — which for the
android `apiKey`/`messagingSenderId`/`appId` includes JSON null when
the downloaded payload lacks the field. -/
theorem c1_amended (pre : Json) (fsx : MergeFs) (a : MergeArgs) (post : Json)
    (hA : androidScalarOfFs fsx = true) (hS : scalarTouchedB pre = true)
    (hok : mergeDoc pre fsx a = .ok post) :
    ∀ ks v, jsGetPath pre ks = some v →
      (∃ w, jsGetPath post ks = some w) ∧
      (v.isObj = false →
        jsGetPath post ks = some v ∨
        ∃ w, jsGetPath post ks = some w ∧ w ∈ mergeAllowedNew a fsx ks) := by
  intro ks v hv
  have inv := mergeDoc_inv pre fsx a post hA hS hok
  constructor
  · cases v with
    | obj l =>
      obtain ⟨l2, h⟩ := inv.objs ks l hv
      exact ⟨_, h⟩
    | null =>
      rcases inv.val ks .null hv rfl with h | ⟨_, w, hw, _⟩
      exacts [⟨_, h⟩, ⟨w, hw⟩]
    | bool b =>
      rcases inv.val ks (.bool b) hv rfl with h | ⟨_, w, hw, _⟩
      exacts [⟨_, h⟩, ⟨w, hw⟩]
    | num n =>
      rcases inv.val ks (.num n) hv rfl with h | ⟨_, w, hw, _⟩
      exacts [⟨_, h⟩, ⟨w, hw⟩]
    | str s =>
      rcases inv.val ks (.str s) hv rfl with h | ⟨_, w, hw, _⟩
      exacts [⟨_, h⟩, ⟨w, hw⟩]
    | arr xs =>
      rcases inv.val ks (.arr xs) hv rfl with h | ⟨_, w, hw, _⟩
      exacts [⟨_, h⟩, ⟨w, hw⟩]
  · intro hvo
    rcases inv.val ks v hv hvo with h | ⟨_, w, hw, hwa⟩
    exacts [Or.inl h, Or.inr ⟨w, hw, hwa⟩]

def c1wPre : Json :=
  .obj [("app", .obj [("name", .str "Old Name")]),
        ("firebase", .obj [("ios", .obj [("projectId", .str "old-proj")])])]

def c1wFs : MergeFs :=
  { appConfig := some ("\x7b...\x7d", some c1wPre)
    iosPlist := none, androidFile := none, webJs := none }

def c1wArgs : MergeArgs :=
  { projectId := "p-1", projectName := "newname", orgDomain := "acme",
    appIds := { ios := "unknown", android := "unknown", web := "unknown" } }

def c1wPost : Json :=
  match mergeDoc c1wPre c1wFs c1wArgs with
  | .ok j => j
  | .error _ => .null

/-- C1 witness: the amended theorem applied at a concrete merge. -/
theorem c1_witness :
    (∃ w, jsGetPath c1wPost ["app", "name"] = some w) ∧
    (jsGetPath c1wPost ["app", "name"] = some (.str "Old Name") ∨
      ∃ w, jsGetPath c1wPost ["app", "name"] = some w ∧
        w ∈ mergeAllowedNew c1wArgs c1wFs ["app", "name"]) := by
  have h := c1_amended c1wPre c1wFs c1wArgs c1wPost rfl rfl rfl
    ["app", "name"] (.str "Old Name") rfl
  exact ⟨h.1, h.2 rfl⟩

def c2pre : Json := .obj [("firebase", .obj [("web", .obj [])])]

def c2fs : MergeFs :=
  { appConfig := some ("\x7b...\x7d", some c2pre)
    iosPlist := none
    androidFile := none
    webJs := some "const firebaseConfig = \"apiKey\": \"KEY123\" ;" }

def c2args : MergeArgs :=
  { projectId := "p-1", projectName := "acme-app", orgDomain := "acme",
    appIds := { ios := "unknown", android := "unknown", web := "1:9:web:abcd" } }

def c2post : Json :=
  match mergeDoc c2pre c2fs c2args with
  | .ok j => j
  | .error _ => .null

/-- C2 counterexample: `apiKey` is absent from the web subsection
pre-merge, the downloaded web payload matches the `apiKey` regex, and
the unguarded assignment (route.ts 770-771) inserts the key. -/
theorem c2_counterexample :
    jsGetPath c2pre ["firebase", "web", "apiKey"] = none ∧
    mergeDoc c2pre c2fs c2args = .ok c2post ∧
    jsGetPath c2post ["firebase", "web", "apiKey"] = some (.str "KEY123") :=
  ⟨rfl, rfl, rfl⟩

/-- C2 (amended): a completed merge on a document whose enumerated
update positions hold scalars, and whose android extraction yields
scalars (both true of real configs; without the latter, route.ts 710
can assign an object-valued `api_key` wholesale, making its nested keys
present), never makes an absent key present, except at the seven
enumerated web-subsection keys, whose assignments are unguarded; in
particular the ios and android subsections and the top level gain no
keys (no summary section is added). -/
theorem c2_amended (pre : Json) (fsx : MergeFs) (a : MergeArgs) (post : Json)
    (hA : androidScalarOfFs fsx = true) (hS : scalarTouchedB pre = true)
    (hok : mergeDoc pre fsx a = .ok post) :
    ∀ ks, jsGetPath pre ks = none →
      jsGetPath post ks = none ∨ ks ∈ webInsertPaths :=
  fun ks h => (mergeDoc_inv pre fsx a post hA hS hok).noIns ks h

/-- C2 witness: the amended theorem applied at a concrete merge. -/
theorem c2_witness :
    jsGetPath c2post ["firebase", "android", "apiKey"] = none ∨
      ["firebase", "android", "apiKey"] ∈ webInsertPaths :=
  c2_amended c2pre c2fs c2args c2post rfl rfl rfl ["firebase", "android", "apiKey"] rfl

/-- C3: if the configuration file exists but `JSON.parse` fails, the
merge returns early (route.ts 656-659): no filesystem write, the
warning message is logged, and the result is a normal return, not an
exception. -/
theorem c3_parse_failure_skips (fsx : MergeFs) (a : MergeArgs) (raw : String)
    (h : fsx.appConfig = some (raw, none)) :
    updateAppConfigJson fsx a = .skippedParse ∧
    mergeWrites (updateAppConfigJson fsx a) = [] ∧
    "Could not parse existing app_config.json, skipping update" ∈
      mergeMessages (updateAppConfigJson fsx a) := by
  have h1 : updateAppConfigJson fsx a = .skippedParse := by
    simp [updateAppConfigJson, h]
  refine ⟨h1, ?_, ?_⟩
  · rw [h1]
    rfl
  · rw [h1]
    simp [mergeMessages]

def c3fs : MergeFs :=
  { appConfig := some ("this is not json", none)
    iosPlist := none, androidFile := none, webJs := none }

def sampleArgs : MergeArgs :=
  { projectId := "p-1", projectName := "acme-app", orgDomain := "acme",
    appIds := { ios := "unknown", android := "unknown", web := "unknown" } }

/-- C3 witness: the theorem at a concrete unparseable file. -/
theorem c3_witness :
    updateAppConfigJson c3fs sampleArgs = .skippedParse ∧
    mergeWrites (updateAppConfigJson c3fs sampleArgs) = [] ∧
    "Could not parse existing app_config.json, skipping update" ∈
      mergeMessages (updateAppConfigJson c3fs sampleArgs) :=
  c3_parse_failure_skips c3fs sampleArgs "this is not json" rfl

/-- C4: if the configuration file does not exist, the merge stage
returns at its existence check (route.ts 613-616) and performs zero
filesystem writes — neither the config file nor the typed-view artifact
`lib/app_config.ts` is created. -/
theorem c4_missing_config_no_writes (fsx : MergeFs) (a : MergeArgs)
    (h : fsx.appConfig = none) :
    updateAppConfigJson fsx a = .skippedMissing ∧
    mergeWrites (updateAppConfigJson fsx a) = [] := by
  have h1 : updateAppConfigJson fsx a = .skippedMissing := by
    simp [updateAppConfigJson, h]
  exact ⟨h1, by rw [h1]; rfl⟩

def c4fs : MergeFs :=
  { appConfig := none, iosPlist := none, androidFile := none, webJs := none }

/-- C4 witness: the theorem at a concrete absent file. -/
theorem c4_witness :
    updateAppConfigJson c4fs sampleArgs = .skippedMissing ∧
    mergeWrites (updateAppConfigJson c4fs sampleArgs) = [] :=
  c4_missing_config_no_writes c4fs sampleArgs rfl

theorem firstMatch_eq_findSome (ps : List (List Char → Option (List Char)))
    (s : List Char) :
    firstMatch ps s = ps.findSome? (fun p => searchPos p s) := by
  induction ps with
  | nil => rfl
  | cons p ps ih =>
    simp only [firstMatch, List.findSome?_cons]
    cases searchPos p s <;> simp [ih]

theorem firstIdWord_eq_find (ws : List (List Char)) :
    firstIdWord ws = ws.find? isIdToken := by
  induction ws with
  | nil => rfl
  | cons w ws ih =>
    simp only [firstIdWord]
    cases h : isIdToken w <;> simp [List.find?, h, ih]

/-- C6 (amended): identifier extraction tries the ordered candidate
patterns, first match anywhere wins; when none matches, the FIRST (not
the longest) whitespace token longer than 15 characters over
`[a-zA-Z0-9-:]` is returned, and "unknown" only when no such token
exists. -/
theorem c6_amended (s : String) : extractAppId s = extractAppIdSpec s := by
  unfold extractAppId extractAppIdSpec
  rw [firstMatch_eq_findSome, firstIdWord_eq_find]

def c6out : String := "done a:bcdefghijklmnop a:bcdefghijklmnopqr"

/-- C6 counterexample: on this output no candidate pattern matches, the
longest identifier-shaped token is the second one, yet `extractAppId`
returns the first such token (route.ts 489-494 iterates words in order)
— refuting the claim's "longest token" fallback. -/
theorem c6_counterexample :
    firstMatch appIdPatterns c6out.data = none ∧
    longestIdToken c6out = some "a:bcdefghijklmnopqr" ∧
    extractAppId c6out = "a:bcdefghijklmnop" ∧
    ("a:bcdefghijklmnop" : String) ≠ "a:bcdefghijklmnopqr" :=
  ⟨rfl, rfl, rfl, by decide⟩

/-- C7 counterexample: `Math.random()` can return 0.5, whose base-36
printout is "0.i"; `substring(2, 8)` then yields a one-character suffix
(route.ts 336), so the candidate id does not match
`<projectName>-[a-z0-9]{6}`. -/
theorem c7_counterexample :
    jsRandWf "0.i" ∧
    candidateProjectId "acme-app" "0.i" = "acme-app-i" ∧
    matchesProjectIdPattern "acme-app" (candidateProjectId "acme-app" "0.i") = false := by
  refine ⟨Or.inr ⟨['i'], rfl, by decide, by decide, by decide⟩, rfl, rfl⟩

/-- C7 (amended): every candidate provisioning-project id generated on
any attempt is the project name, a hyphen, and AT MOST six characters
drawn from `[a-z0-9]` — exactly six only when the random value's
base-36 expansion has at least six fractional digits. -/
theorem c7_amended (e : PipelineEnv) (req : ProjectRequest) (n : Nat)
    (h : jsRandWf (e.projRand n)) :
    ∃ suffix : String,
      candidateProjectId req.projectName (e.projRand n) =
        req.projectName ++ "-" ++ suffix ∧
      suffix.length ≤ 6 ∧ suffix.data.all base36Char = true := by
  refine ⟨jsSubstring (e.projRand n) 2 8, rfl, ?_⟩
  rcases h with h0 | ⟨ds, hds, _, hall, _⟩
  · rw [h0]
    constructor <;> decide
  · unfold jsSubstring
    rw [hds]
    constructor
    · have : (('0' :: '.' :: ds).drop 2) = ds := rfl
      rw [this]
      have hlen : ((ds.take 6).length) ≤ 6 := by
        rw [List.length_take]
        omega
      calc (String.mk ((ds.take 6))).length = (ds.take 6).length := rfl
        _ ≤ 6 := hlen
    · have : (('0' :: '.' :: ds).drop 2) = ds := rfl
      rw [this]
      have hdata : (String.mk (ds.take 6)).data = ds.take 6 := rfl
      rw [hdata, List.all_eq_true]
      intro x hx
      exact List.all_eq_true.mp hall x (List.take_subset 6 ds hx)

/-- C7 witness: the amended theorem at a concrete environment. -/
theorem c7_witness :
    ∃ suffix : String,
      candidateProjectId c5req.projectName (c5env.projRand 1) =
        c5req.projectName ++ "-" ++ suffix ∧
      suffix.length ≤ 6 ∧ suffix.data.all base36Char = true :=
  c7_amended c5env c5req 1
    (Or.inr ⟨['k', '3', 'j', '9', 'x', '2', 'a'], rfl, by decide, by decide, by decide⟩)

/-- An environment where every stage succeeds. -/
def c8env : PipelineEnv := { c5env with commitOk := true }

/-- C8: on a fully successful run the tagging stage executes
`git push origin <tag>` (route.ts 1165) — "origin" is the clone's
remote, i.e. the template repository — contradicting both the claim and
the code's own commit-stage statement that the template repository is
never pushed to (route.ts 957-959). -/
theorem c8_tag_pushed_to_template_remote :
    ∃ r, runCreateProject c8env c5req = .success r ∧
      ("origin", "base-build-2025-06-01") ∈ r.pushes :=
  ⟨_, rfl, by decide⟩

/-- C9: no environment makes the pipeline abort at the config-merge
stage: `updateAppConfigJson` catches every internal error (route.ts
891-895) and the run continues to the commit stage. -/
theorem c9_merge_never_fatal (e : PipelineEnv) (req : ProjectRequest) :
    (runCreateProject e req).fatalStage ≠ some Stage.mergeConfig := by
  unfold runCreateProject
  repeat' split
  all_goals simp [PipelineOutcome.fatalStage]

/-- C9 witness: the theorem at a concrete environment. -/
theorem c9_witness :
    (runCreateProject c8env c5req).fatalStage ≠ some Stage.mergeConfig :=
  c9_merge_never_fatal c8env c5req

/-- C10: the build-tag name of a successful result is always the plain
date-named string computed at response time (route.ts 171), independent
of the name the tagging stage actually created (which may be
timestamp-suffixed, route.ts 1150) and of whether tag creation
succeeded at all. -/
theorem c10_reported_tag (e : PipelineEnv) (req : ProjectRequest) (r : PipelineResult)
    (h : runCreateProject e req = .success r) :
    r.baseBuildTag = "base-build-" ++ e.responseDateStr := by
  unfold runCreateProject at h
  repeat' split at h
  all_goals first
    | exact PipelineOutcome.noConfusion h
    | (injection h with h2; subst h2; rfl)

/-- An environment where the plain tag name is taken, so the tagging
stage creates a timestamp-suffixed tag. -/
def c10env : PipelineEnv := { c8env with tagRevParseOk := true }

/-- C10 witness: a successful run that created the suffixed tag
"base-build-2025-06-01-1718000000000" still reports the plain
response-date tag. -/
theorem c10_witness :
    ∃ r, runCreateProject c10env c5req = .success r ∧
      r.baseBuildTag = "base-build-2025-06-02" ∧
      r.createdTag = some "base-build-2025-06-01-1718000000000" := by
  refine ⟨_, rfl, ?_, rfl⟩
  exact c10_reported_tag c10env c5req _ rfl
